import Mathlib

/-!
Shallow embedding of `dynhist.go` (package `dynhist`, repository
`vearutop/dynhist-go`) and proofs about it.

The embedding comes in two layers.

* The main model embeds `float64` sample values as exact rationals (`ℚ`) and
  Go `int` as `ℤ`.  Every structural decision of `Collector.Add`
  (comparisons, bucket boundaries) copies or compares input values without
  rounding, so on real (non-NaN, finite) inputs this model is exact; the
  only approximation is that `Sum` accumulates without floating-point
  rounding, which the specification itself allows ("within floating
  tolerance").
* A second model (`FDynhist` below) embeds `float64` including the IEEE
  special values NaN and ±Inf, which is needed for the claims about
  degenerate weight computation and NaN insertion.
-/

namespace Dynhist

/-- Go struct `Bucket`: a closed interval with aggregate statistics
(`dynhist.go` lines 40–46). -/
structure Bucket where
  Min : ℚ
  Max : ℚ
  Count : ℤ
  Sum : ℚ
deriving DecidableEq, Repr

instance : Inhabited Bucket := ⟨⟨0, 0, 0, 0⟩⟩

/-- Type of `WeightFunc func(b1, b2, bTot Bucket) float64`. -/
abbrev Weight := Bucket → Bucket → Bucket → ℚ

/-- `AvgWidth` weight function (lines 69–71): `b2.Max - b1.Min`. -/
def AvgWidth : Weight := fun b1 b2 _ => b2.Max - b1.Min

/-- `DefaultBucketsLimit = 20` (line 13). -/
def DefaultBucketsLimit : ℤ := 20

/-- Go struct `Collector` (lines 16–38).  The embedded `Bucket` field keeps
the global `Min`/`Max`/`Count`/`Sum`.  `RawValues` and `WeightFunc` are
`nil`-able Go values, hence `Option`s.  The mutex has no observable effect in
a sequential semantics and is dropped. -/
structure Collector where
  BucketsLimit : ℤ
  total : Bucket
  Buckets : List Bucket
  PrintSum : Bool
  RawValues : Option (List ℚ)
  WeightFunc : Option Weight

/-- The bucket-scan loop of `Add` (lines 154–171): count `v` into the first
bucket containing it, or insert a fresh singleton bucket before the first
bucket whose `Min` exceeds `v`.  Falling off the end of the loop leaves the
buckets unchanged (the Go loop just ends). -/
def insertLoop (v : ℚ) : List Bucket → List Bucket
  | [] => []
  | b :: tl =>
    if b.Min ≤ v then
      if v ≤ b.Max then { b with Count := b.Count + 1, Sum := b.Sum + v } :: tl
      else b :: insertLoop v tl
    else { Min := v, Max := v, Count := 1, Sum := v } :: b :: tl

/-- Lines 112–114 of `Add`: append `v` to the raw-value log when it is
enabled (non-`nil`). -/
def Collector.addRaw (c : Collector) (v : ℚ) : Collector :=
  match c.RawValues with
  | some rv => { c with RawValues := some (rv ++ [v]) }
  | none => c

/-- Lines 116–171 of `Add`: global totals, then the four placement
branches. -/
def Collector.addCore (c : Collector) (v : ℚ) : Collector :=
  let c := { c with total := { c.total with Count := c.total.Count + 1, Sum := c.total.Sum + v } }
  if c.Buckets = [] then
    { c with
      BucketsLimit := if c.BucketsLimit = 0 then DefaultBucketsLimit else c.BucketsLimit,
      WeightFunc := match c.WeightFunc with
        | none => some AvgWidth
        | some f => some f,
      Buckets := [⟨v, v, 1, v⟩],
      total := { c.total with Min := v, Max := v } }
  else if v < c.total.Min then
    { c with Buckets := ⟨v, v, 1, v⟩ :: c.Buckets,
             total := { c.total with Min := v } }
  else if v > c.total.Max then
    { c with Buckets := c.Buckets ++ [⟨v, v, 1, v⟩],
             total := { c.total with Max := v } }
  else
    { c with Buckets := insertLoop v c.Buckets }

/-- Body of `Add` (lines 112–171): raw-value log, then totals and
placement. -/
def Collector.addBody (c : Collector) (v : ℚ) : Collector :=
  (c.addRaw v).addCore v

/-- Pair scan of the merge block (lines 78–94), kept in the source's shape:
`mergePoint` starts at `0`, the first pair is adopted unconditionally, later
pairs only on strictly smaller weight.  `i` is the index of `b` in the full
bucket list, `prev` is the bucket at `i - 1`. -/
def selectFrom (wf : Weight) (bTot : Bucket) : Bucket → List Bucket → ℕ → ℕ → ℚ → ℕ
  | _, [], _, mergePoint, _ => mergePoint
  | prev, b :: tl, i, mergePoint, minWeight =>
    if mergePoint = 0 then
      selectFrom wf bTot b tl (i + 1) i (wf prev b bTot)
    else if wf prev b bTot < minWeight then
      selectFrom wf bTot b tl (i + 1) i (wf prev b bTot)
    else
      selectFrom wf bTot b tl (i + 1) mergePoint minWeight

/-- The merge-point selection of lines 78–94. -/
def selectMergePoint (wf : Weight) (bTot : Bucket) : List Bucket → ℕ
  | [] => 0
  | b :: tl => selectFrom wf bTot b tl 1 0 0

/-- Lines 96–107: drop the bucket at `mergePoint - 1` and overwrite the
element now at `mergePoint - 1` with the merged pair. -/
def mergeAt (bs : List Bucket) (mergePoint : ℕ) : List Bucket :=
  let b1 := bs.getD (mergePoint - 1) default
  let b2 := bs.getD mergePoint default
  let merged : Bucket :=
    { Count := b1.Count + b2.Count, Sum := b1.Sum + b2.Sum, Min := b1.Min, Max := b2.Max }
  (bs.take (mergePoint - 1) ++ bs.drop mergePoint).set (mergePoint - 1) merged

/-- The deferred merge block of `Add` (lines 76–108).  A `nil` `WeightFunc`
with overfull buckets would panic in Go and is unreachable through `Add`
(lazy initialisation precedes any merge); the model totalises it with the
default `AvgWidth`. -/
def Collector.mergeIfNeeded (c : Collector) : Collector :=
  if c.BucketsLimit < (c.Buckets.length : ℤ) then
    { c with Buckets := mergeAt c.Buckets (selectMergePoint (c.WeightFunc.getD AvgWidth) c.total c.Buckets) }
  else c

/-- `Collector.Add` (lines 74–172): the body followed by the deferred merge
block, which Go runs on every exit path. -/
def Collector.Add (c : Collector) (v : ℚ) : Collector :=
  (c.addBody v).mergeIfNeeded

/-- A freshly constructed `Collector` (Go zero value) with the caller-settable
configuration fields: `BucketsLimit`, `WeightFunc` and whether the raw-value
log is enabled (a non-`nil` `RawValues`). -/
def mkCollector (limit : ℤ) (wf : Option Weight) (raw : Bool) : Collector :=
  { BucketsLimit := limit, total := ⟨0, 0, 0, 0⟩, Buckets := [], PrintSum := false,
    RawValues := if raw then some [] else none, WeightFunc := wf }

/-- Run a sequence of `Add` calls. -/
def runAdds (c : Collector) (vs : List ℚ) : Collector :=
  vs.foldl Collector.Add c

/-- Go's `int(f)` conversion truncates toward zero. -/
def truncQ (q : ℚ) : ℤ := if 0 ≤ q then ⌊q⌋ else ⌈q⌉

/-- Scan loop of `Percentile` (lines 292–300). -/
def percentileLoop (targetCount : ℤ) (globalMax : ℚ) : ℤ → List Bucket → ℚ
  | _, [] => globalMax
  | count, b :: tl =>
    if targetCount ≤ count + b.Count then b.Max
    else percentileLoop targetCount globalMax (count + b.Count) tl

/-- `Collector.Percentile` (lines 286–301). -/
def Collector.Percentile (c : Collector) (percent : ℚ) : ℚ :=
  percentileLoop (truncQ (percent * (c.total.Count : ℚ) / 100)) c.total.Max 0 c.Buckets

/-- Scan loop of `PercentileSum` (lines 309–321). -/
def percentileSumLoop (targetCount : ℤ) (globalSum : ℚ) : ℤ → ℚ → List Bucket → ℚ
  | _, _, [] => globalSum
  | count, sum, b :: tl =>
    if targetCount ≤ count + b.Count then sum + b.Sum
    else percentileSumLoop targetCount globalSum (count + b.Count) (sum + b.Sum) tl

/-- `Collector.PercentileSum` (lines 303–322). -/
def Collector.PercentileSum (c : Collector) (percent : ℚ) : ℚ :=
  percentileSumLoop (truncQ (percent * (c.total.Count : ℚ) / 100)) c.total.Sum 0 0 c.Buckets

/-! Aggregations over a bucket list, used to state the invariants. -/

/-- Total of the per-bucket `Count` fields. -/
def countSum (bs : List Bucket) : ℤ := (bs.map Bucket.Count).sum

/-- Total of the per-bucket `Sum` fields. -/
def sumSum (bs : List Bucket) : ℚ := (bs.map Bucket.Sum).sum

/-- A structurally well-formed bucket: nonempty interval, positive count. -/
def GoodB (b : Bucket) : Prop := b.Min ≤ b.Max ∧ 1 ≤ b.Count

/-- Adjacent buckets do not overlap: `Max` of the left is at most `Min` of
the right. -/
def ChainLe (bs : List Bucket) : Prop := List.Chain' (fun a b => a.Max ≤ b.Min) bs

/-- Structural invariant of a collector, maintained by `Add` (spec §3). -/
structure Inv (c : Collector) : Prop where
  chain : ChainLe c.Buckets
  good : ∀ b ∈ c.Buckets, GoodB b
  count_eq : countSum c.Buckets = c.total.Count
  sum_eq : sumSum c.Buckets = c.total.Sum
  head_min : ∀ b, c.Buckets.head? = some b → b.Min = c.total.Min
  last_max : ∀ b, c.Buckets.getLast? = some b → b.Max = c.total.Max
  len_le : (c.Buckets.length : ℤ) ≤ c.BucketsLimit
  limit_empty : c.Buckets = [] → c.BucketsLimit = 0 ∨ 1 ≤ c.BucketsLimit
  limit_pos : c.Buckets ≠ [] → 1 ≤ c.BucketsLimit

/-- State of a collector after the body of `Add`, before the deferred merge
block: at most one bucket over the cap. -/
structure PreInv (c : Collector) : Prop where
  chain : ChainLe c.Buckets
  good : ∀ b ∈ c.Buckets, GoodB b
  count_eq : countSum c.Buckets = c.total.Count
  sum_eq : sumSum c.Buckets = c.total.Sum
  head_min : ∀ b, c.Buckets.head? = some b → b.Min = c.total.Min
  last_max : ∀ b, c.Buckets.getLast? = some b → b.Max = c.total.Max
  ne : c.Buckets ≠ []
  len_le1 : (c.Buckets.length : ℤ) ≤ c.BucketsLimit + 1
  limit_pos : 1 ≤ c.BucketsLimit

theorem countSum_nil : countSum [] = 0 := rfl

theorem countSum_cons (b : Bucket) (bs : List Bucket) :
    countSum (b :: bs) = b.Count + countSum bs := by
  simp [countSum]

theorem countSum_append (l r : List Bucket) :
    countSum (l ++ r) = countSum l + countSum r := by
  simp [countSum]

theorem sumSum_nil : sumSum [] = 0 := rfl

theorem sumSum_cons (b : Bucket) (bs : List Bucket) :
    sumSum (b :: bs) = b.Sum + sumSum bs := by
  simp [sumSum]

theorem sumSum_append (l r : List Bucket) :
    sumSum (l ++ r) = sumSum l + sumSum r := by
  simp [sumSum]

/-- Everything the invariant proofs need about one pass of the bucket-scan
loop of `Add`, for a value that does not exceed the last bucket's `Max`. -/
theorem insertLoop_spec (v : ℚ) :
    ∀ bs : List Bucket, bs ≠ [] → ChainLe bs → (∀ b ∈ bs, GoodB b) →
    (∀ bl, bs.getLast? = some bl → v ≤ bl.Max) →
    insertLoop v bs ≠ [] ∧
    ChainLe (insertLoop v bs) ∧
    (∀ b ∈ insertLoop v bs, GoodB b) ∧
    countSum (insertLoop v bs) = countSum bs + 1 ∧
    sumSum (insertLoop v bs) = sumSum bs + v ∧
    (insertLoop v bs).head?.map Bucket.Min = bs.head?.map (fun b => min v b.Min) ∧
    (insertLoop v bs).getLast?.map Bucket.Max = bs.getLast?.map Bucket.Max ∧
    ((insertLoop v bs).length = bs.length ∨ (insertLoop v bs).length = bs.length + 1) := by
  intro bs
  induction bs with
  | nil => intro h; exact absurd rfl h
  | cons b tl ih =>
    intro _ hchain hgood hlast
    by_cases hbmin : b.Min ≤ v
    · by_cases hbmax : v ≤ b.Max
      · -- the value lands in bucket `b`
        have hloop : insertLoop v (b :: tl)
            = { b with Count := b.Count + 1, Sum := b.Sum + v } :: tl := by
          simp [insertLoop, hbmin, hbmax]
        rw [hloop]
        obtain ⟨hbm, hbc⟩ := hgood b (by simp)
        refine ⟨by simp, ?_, ?_, ?_, ?_, ?_, ?_, by simp⟩
        · rcases List.chain'_cons'.mp hchain with ⟨hhd, htl⟩
          exact List.chain'_cons'.mpr ⟨fun y hy => hhd y hy, htl⟩
        · intro x hx
          rcases List.mem_cons.mp hx with h | h
          · subst h
            show b.Min ≤ b.Max ∧ 1 ≤ b.Count + 1
            exact ⟨hbm, by omega⟩
          · exact hgood x (by simp [h])
        · simp [countSum_cons]; ring
        · simp [sumSum_cons]; ring
        · simp [min_eq_right hbmin]
        · cases tl with
          | nil => simp
          | cons b2 tl2 => simp [List.getLast?_cons_cons]
      · -- `v` is beyond bucket `b`: the loop continues on `tl`
        have hloop : insertLoop v (b :: tl) = b :: insertLoop v tl := by
          simp [insertLoop, hbmin, hbmax]
        have htlne : tl ≠ [] := by
          rintro rfl
          exact hbmax (hlast b (by simp))
        obtain ⟨b2, tl2, rfl⟩ := List.exists_cons_of_ne_nil htlne
        have hchain' : ChainLe (b2 :: tl2) := (List.chain'_cons.mp hchain).2
        have hbb2 : b.Max ≤ b2.Min := (List.chain'_cons.mp hchain).1
        have hgood' : ∀ x ∈ b2 :: tl2, GoodB x := fun x hx => hgood x (by simp [hx])
        have hlast' : ∀ bl, (b2 :: tl2).getLast? = some bl → v ≤ bl.Max := by
          intro bl hbl
          exact hlast bl (by rw [List.getLast?_cons_cons]; exact hbl)
        obtain ⟨ihne, ihchain, ihgood, ihcount, ihsum, ihhead, ihlast, ihlen⟩ :=
          ih (by simp) hchain' hgood' hlast'
        obtain ⟨b', tl', heq⟩ := List.exists_cons_of_ne_nil ihne
        rw [hloop]
        have hvlt : b.Max < v := lt_of_not_le hbmax
        refine ⟨by simp, ?_, ?_, ?_, ?_, ?_, ?_, ?_⟩
        · refine List.chain'_cons'.mpr ⟨?_, ihchain⟩
          intro y hy
          rw [heq] at hy ihhead
          simp at hy ihhead
          subst hy
          rw [ihhead]
          exact le_min (le_of_lt hvlt) (le_trans hbb2 (by simp))
        · intro x hx
          rcases List.mem_cons.mp hx with h | h
          · subst h; exact hgood x (by simp)
          · exact ihgood x h
        · rw [countSum_cons, countSum_cons, ihcount]; ring
        · rw [sumSum_cons, sumSum_cons, ihsum]; ring
        · simp [min_eq_right hbmin]
        · rw [List.getLast?_cons_cons]
          obtain ⟨c', cs', htl'⟩ := List.exists_cons_of_ne_nil ihne
          rw [htl', List.getLast?_cons_cons, ← htl']
          exact ihlast
        · rcases ihlen with h | h <;> simp [h]
    · -- a new bucket is inserted before `b`
      have hloop : insertLoop v (b :: tl)
          = { Min := v, Max := v, Count := 1, Sum := v } :: b :: tl := by
        simp [insertLoop, hbmin]
      rw [hloop]
      have hvb : v < b.Min := lt_of_not_le hbmin
      refine ⟨by simp, ?_, ?_, ?_, ?_, ?_, ?_, by right; simp⟩
      · exact List.chain'_cons.mpr ⟨le_of_lt hvb, hchain⟩
      · intro x hx
        rcases List.mem_cons.mp hx with h | h
        · subst h; exact ⟨le_refl v, le_refl 1⟩
        · exact hgood x h
      · rw [countSum_cons, countSum_cons]; ring
      · rw [sumSum_cons, sumSum_cons]; ring
      · simp [min_eq_left (le_of_lt hvb)]
      · rw [List.getLast?_cons_cons]

/-- `mergeAt` on a list split at the merge point: the selected adjacent pair
is replaced by the single merged bucket. -/
theorem mergeAt_append (l r : List Bucket) (b1 b2 : Bucket) :
    mergeAt (l ++ b1 :: b2 :: r) (l.length + 1)
      = l ++ { Min := b1.Min, Max := b2.Max,
               Count := b1.Count + b2.Count, Sum := b1.Sum + b2.Sum } :: r := by
  induction l with
  | nil => simp [mergeAt]
  | cons a l ih =>
    have hmp : (a :: l).length + 1 = l.length + 1 + 1 := by simp
    simp only [List.cons_append, hmp]
    simp only [mergeAt, Nat.add_sub_cancel, List.getD_cons_succ, List.take_succ_cons,
      List.drop_succ_cons, List.cons_append, List.set_cons_succ] at ih ⊢
    rw [ih]

/-- Split a list at a valid merge point. -/
theorem exists_split (bs : List Bucket) :
    ∀ mp : ℕ, 1 ≤ mp → mp < bs.length →
    ∃ l b1 b2 r, bs = l ++ b1 :: b2 :: r ∧ l.length = mp - 1 := by
  induction bs with
  | nil => intro mp _ h; simp at h
  | cons a tl ih =>
    intro mp h1 h2
    match mp, h1 with
    | 1, _ =>
      cases tl with
      | nil => simp at h2
      | cons b tl2 => exact ⟨[], a, b, tl2, rfl, rfl⟩
    | (n + 2), _ =>
      have hn : 1 ≤ n + 1 := by omega
      have hlt : n + 1 < tl.length := by simp at h2; omega
      obtain ⟨l, b1, b2, r, heq, hlen⟩ := ih (n + 1) hn hlt
      exact ⟨a :: l, b1, b2, r, by rw [heq, List.cons_append], by simp [hlen]⟩

/-- The scan of `selectFrom` only moves the merge point to indices of later
pairs: starting from an established merge point `mp < i`, the result stays in
`[1, i + rest.length)` provided `1 ≤ mp`. -/
theorem selectFrom_bounds (wf : Weight) (bTot : Bucket) :
    ∀ (rest : List Bucket) (prev : Bucket) (i mp : ℕ) (minW : ℚ),
    1 ≤ mp → mp < i →
    1 ≤ selectFrom wf bTot prev rest i mp minW ∧
    selectFrom wf bTot prev rest i mp minW < i + rest.length := by
  intro rest
  induction rest with
  | nil =>
    intro prev i mp minW h1 h2
    simp only [selectFrom]
    exact ⟨h1, by simpa using h2⟩
  | cons b tl ih =>
    intro prev i mp minW h1 h2
    have hmp0 : ¬ (mp = 0) := by omega
    simp only [selectFrom, hmp0, if_false]
    by_cases hlt : wf prev b bTot < minW
    · simp only [hlt, if_true]
      have := ih b (i + 1) i (wf prev b bTot) (by omega) (by omega)
      exact ⟨this.1, by simpa [Nat.add_assoc, Nat.add_comm, Nat.add_left_comm] using this.2⟩
    · simp only [hlt, if_false]
      have := ih b (i + 1) mp minW h1 (by omega)
      exact ⟨this.1, by simpa [Nat.add_assoc, Nat.add_comm, Nat.add_left_comm] using this.2⟩

/-- The raw-value log step touches no field the invariant mentions. -/
theorem addRaw_fields (c : Collector) (v : ℚ) :
    (c.addRaw v).Buckets = c.Buckets ∧ (c.addRaw v).total = c.total ∧
    (c.addRaw v).BucketsLimit = c.BucketsLimit ∧ (c.addRaw v).WeightFunc = c.WeightFunc := by
  unfold Collector.addRaw
  cases c.RawValues <;> simp

theorem inv_addRaw (c : Collector) (v : ℚ) (h : Inv c) : Inv (c.addRaw v) := by
  obtain ⟨hB, ht, hL, _⟩ := addRaw_fields c v
  exact ⟨hB ▸ h.chain, hB ▸ h.good, by rw [hB, ht]; exact h.count_eq,
    by rw [hB, ht]; exact h.sum_eq, by rw [hB, ht]; exact h.head_min,
    by rw [hB, ht]; exact h.last_max, by rw [hB, hL]; exact h.len_le,
    by rw [hB, hL]; exact h.limit_empty, by rw [hB, hL]; exact h.limit_pos⟩

/-- The core of the `Add` body takes an invariant state to a state that is
invariant except for possibly one bucket over the cap. -/
theorem addCore_preinv (c : Collector) (v : ℚ) (h : Inv c) : PreInv (c.addCore v) := by
  unfold Collector.addCore
  by_cases hempty : c.Buckets = []
  · have hc0 : c.total.Count = 0 := by rw [← h.count_eq, hempty]; rfl
    have hs0 : c.total.Sum = 0 := by rw [← h.sum_eq, hempty]; rfl
    have hlim' : 1 ≤ (if c.BucketsLimit = 0 then DefaultBucketsLimit else c.BucketsLimit) := by
      rcases h.limit_empty hempty with h0 | h0
      · rw [if_pos h0]; norm_num [DefaultBucketsLimit]
      · rw [if_neg (by omega)]; exact h0
    simp only [hempty, if_pos]
    refine ⟨?_, ?_, ?_, ?_, ?_, ?_, by simp, ?_, by simpa using hlim'⟩
    · simp [ChainLe]
    · intro b hb
      simp at hb
      subst hb
      exact ⟨le_refl v, le_refl 1⟩
    · simp [countSum_cons, countSum_nil, hc0]
    · simp [sumSum_cons, sumSum_nil, hs0]
    · intro b hb; simp at hb; subst hb; rfl
    · intro b hb; simp at hb; subst hb; rfl
    · simp only [List.length_cons, List.length_nil]
      push_cast
      omega
  · obtain ⟨b0, tl0, hb0⟩ := List.exists_cons_of_ne_nil hempty
    have hlim : 1 ≤ c.BucketsLimit := h.limit_pos hempty
    have hhead0 : b0.Min = c.total.Min := h.head_min b0 (by rw [hb0]; rfl)
    simp only [hempty, if_neg, ite_false]
    by_cases hmin : v < c.total.Min
    · simp only [hmin, if_pos, ite_true]
      refine ⟨?_, ?_, ?_, ?_, ?_, ?_, by simp, ?_, by simpa using hlim⟩
      · refine List.chain'_cons'.mpr ⟨?_, h.chain⟩
        intro y hy
        rw [hb0] at hy
        simp at hy
        subst hy
        simp [hhead0, le_of_lt hmin]
      · intro b hb
        rcases List.mem_cons.mp hb with hb | hb
        · subst hb; exact ⟨le_refl v, le_refl 1⟩
        · exact h.good b hb
      · simp [countSum_cons, h.count_eq]; ring
      · simp [sumSum_cons, h.sum_eq]; ring
      · intro b hb; simp at hb; subst hb; rfl
      · intro b hb
        rw [hb0, List.getLast?_cons_cons] at hb
        have := h.last_max b (by rw [hb0]; exact hb)
        simpa using this
      · have := h.len_le
        simp only [List.length_cons]
        push_cast
        omega
    · simp only [hmin, if_neg, ite_false]
      by_cases hmax : c.total.Max < v
      · simp only [hmax, if_pos, ite_true]
        refine ⟨?_, ?_, ?_, ?_, ?_, ?_, by simp, ?_, by simpa using hlim⟩
        · refine List.chain'_append.mpr ⟨h.chain, by simp [ChainLe], ?_⟩
          intro x hx y hy
          simp at hy
          subst hy
          have := h.last_max x (by simpa using hx)
          simp [this]
          exact le_of_lt hmax
        · intro b hb
          rcases List.mem_append.mp hb with hb | hb
          · exact h.good b hb
          · simp at hb; subst hb; exact ⟨le_refl v, le_refl 1⟩
        · simp [countSum_append, countSum_cons, countSum_nil, h.count_eq]
        · simp [sumSum_append, sumSum_cons, sumSum_nil, h.sum_eq]
        · intro b hb
          rw [List.head?_append_of_ne_nil _ hempty] at hb
          simpa using h.head_min b hb
        · intro b hb
          rw [List.getLast?_append_of_ne_nil _ (by simp)] at hb
          simp at hb
          subst hb
          rfl
        · have := h.len_le
          simp only [List.length_append, List.length_cons, List.length_nil]
          push_cast
          omega
      · simp only [hmax, if_neg, ite_false]
        have hvle : v ≤ c.total.Max := le_of_not_lt hmax
        have hlast' : ∀ bl, c.Buckets.getLast? = some bl → v ≤ bl.Max := by
          intro bl hbl
          rw [h.last_max bl hbl]
          exact hvle
        obtain ⟨hne', hchain', hgood', hcount', hsum', hhead', hlast'', hlen'⟩ :=
          insertLoop_spec v c.Buckets hempty h.chain h.good hlast'
        refine ⟨hchain', hgood', ?_, ?_, ?_, ?_, by simpa using hne', ?_, by simpa using hlim⟩
        · simp [hcount', h.count_eq]
        · simp [hsum', h.sum_eq]
        · intro b hb
          have hb' : (insertLoop v c.Buckets).head? = some b := hb
          rw [hb', hb0] at hhead'
          simp at hhead'
          show b.Min = c.total.Min
          rw [hhead', hhead0]
          exact min_eq_right (le_of_not_lt hmin)
        · intro b hb
          have hb' : (insertLoop v c.Buckets).getLast? = some b := hb
          obtain ⟨bl, hbl⟩ : ∃ bl, c.Buckets.getLast? = some bl := by
            cases hgl : c.Buckets.getLast? with
            | none => exact absurd (List.getLast?_eq_none_iff.mp hgl) hempty
            | some bl => exact ⟨bl, rfl⟩
          rw [hb', hbl] at hlast''
          simp at hlast''
          show b.Max = c.total.Max
          rw [hlast'']
          exact h.last_max bl hbl
        · have := h.len_le
          rcases hlen' with hl | hl <;> rw [hl] <;> push_cast <;> omega

/-- Whenever at least two buckets exist, the selected merge point addresses a
real adjacent pair. -/
theorem selectMergePoint_bounds (wf : Weight) (bTot : Bucket) (bs : List Bucket)
    (h : 2 ≤ bs.length) :
    1 ≤ selectMergePoint wf bTot bs ∧ selectMergePoint wf bTot bs < bs.length := by
  match bs, h with
  | b0 :: b1 :: tl, _ =>
    show 1 ≤ selectFrom wf bTot b0 (b1 :: tl) 1 0 0 ∧ _
    have hstep : selectFrom wf bTot b0 (b1 :: tl) 1 0 0
        = selectFrom wf bTot b1 tl 2 1 (wf b0 b1 bTot) := by
      simp [selectFrom]
    rw [selectMergePoint, hstep]
    have := selectFrom_bounds wf bTot tl b1 2 1 (wf b0 b1 bTot) (by omega) (by omega)
    refine ⟨this.1, ?_⟩
    have h2 := this.2
    simp only [List.length_cons]
    omega

/-- The (possible) merged bucket list keeps every aggregate invariant and
shrinks an over-cap list back under the cap. -/
theorem merged_list_inv (l r : List Bucket) (b1 b2 : Bucket)
    (hchain : ChainLe (l ++ b1 :: b2 :: r)) (hgood : ∀ b ∈ l ++ b1 :: b2 :: r, GoodB b) :
    let m : Bucket := { Min := b1.Min, Max := b2.Max,
                        Count := b1.Count + b2.Count, Sum := b1.Sum + b2.Sum }
    ChainLe (l ++ m :: r) ∧ (∀ b ∈ l ++ m :: r, GoodB b) ∧
    countSum (l ++ m :: r) = countSum (l ++ b1 :: b2 :: r) ∧
    sumSum (l ++ m :: r) = sumSum (l ++ b1 :: b2 :: r) ∧
    (l ++ m :: r).head?.map Bucket.Min = (l ++ b1 :: b2 :: r).head?.map Bucket.Min ∧
    (l ++ m :: r).getLast?.map Bucket.Max = (l ++ b1 :: b2 :: r).getLast?.map Bucket.Max ∧
    (l ++ m :: r).length + 1 = (l ++ b1 :: b2 :: r).length := by
  intro m
  obtain ⟨hcl, hcmid, hlink⟩ := List.chain'_append.mp hchain
  obtain ⟨h12, hc2r⟩ := List.chain'_cons.mp hcmid
  obtain ⟨hg1⟩ := hgood b1 (by simp)
  have hg2 := hgood b2 (by simp)
  refine ⟨?_, ?_, ?_, ?_, ?_, ?_, by simp only [List.length_append, List.length_cons]; omega⟩
  · refine List.chain'_append.mpr ⟨hcl, ?_, ?_⟩
    · refine List.chain'_cons'.mpr ⟨?_, (List.chain'_cons'.mp hc2r).2⟩
      intro y hy
      exact (List.chain'_cons'.mp hc2r).1 y hy
    · intro x hx y hy
      simp at hy
      subst hy
      exact hlink x hx b1 (by simp)
  · intro b hb
    rcases List.mem_append.mp hb with hb | hb
    · exact hgood b (by simp [hb])
    · rcases List.mem_cons.mp hb with hb | hb
      · subst hb
        refine ⟨le_trans hg1 (le_trans h12 hg2.1), ?_⟩
        have := hg2.2
        have := (hgood b1 (by simp)).2
        show 1 ≤ b1.Count + b2.Count
        omega
      · exact hgood b (by simp [hb])
  · simp [countSum_append, countSum_cons]
    ring
  · simp [sumSum_append, sumSum_cons]
    ring
  · cases l with
    | nil => simp
    | cons a l' => simp
  · cases r with
    | nil =>
      rw [@List.getLast?_append_of_ne_nil Bucket l [m] (by simp),
        @List.getLast?_append_of_ne_nil Bucket l [b1, b2] (by simp)]
      simp
    | cons c' r' =>
      rw [@List.getLast?_append_of_ne_nil Bucket l (m :: c' :: r') (by simp),
        @List.getLast?_append_of_ne_nil Bucket l (b1 :: b2 :: c' :: r') (by simp),
        List.getLast?_cons_cons, List.getLast?_cons_cons, List.getLast?_cons_cons]

/-- The deferred merge block takes a may-be-one-over state back to the full
invariant; it never empties the bucket list and leaves the totals and the
limit alone. -/
theorem mergeIfNeeded_inv (c : Collector) (h : PreInv c) :
    Inv c.mergeIfNeeded ∧ c.mergeIfNeeded.Buckets ≠ [] ∧
    c.mergeIfNeeded.BucketsLimit = c.BucketsLimit ∧ c.mergeIfNeeded.total = c.total := by
  unfold Collector.mergeIfNeeded
  by_cases hm : c.BucketsLimit < (c.Buckets.length : ℤ)
  · rw [if_pos hm]
    have h2len : 2 ≤ c.Buckets.length := by
      have := h.limit_pos
      omega
    obtain ⟨hge1, hlt⟩ :=
      selectMergePoint_bounds (c.WeightFunc.getD AvgWidth) c.total c.Buckets h2len
    obtain ⟨l, b1, b2, r, hsplit, hlen⟩ :=
      exists_split c.Buckets _ hge1 hlt
    have hm1 : selectMergePoint (c.WeightFunc.getD AvgWidth) c.total c.Buckets
        = l.length + 1 := by omega
    have hmerge : mergeAt c.Buckets (selectMergePoint (c.WeightFunc.getD AvgWidth) c.total c.Buckets)
        = l ++ { Min := b1.Min, Max := b2.Max,
                 Count := b1.Count + b2.Count, Sum := b1.Sum + b2.Sum } :: r := by
      rw [hm1, hsplit, mergeAt_append]
    obtain ⟨ichain, igood, icount, isum, ihead, ilast, ilen⟩ :=
      merged_list_inv l r b1 b2 (hsplit ▸ h.chain) (hsplit ▸ h.good)
    rw [hmerge]
    have hlen_old : c.Buckets.length = (l ++ b1 :: b2 :: r).length := by rw [hsplit]
    refine ⟨⟨ichain, igood, ?_, ?_, ?_, ?_, ?_, by simp, fun _ => h.limit_pos⟩, by simp, by simp, by simp⟩
    · show countSum (l ++ _ :: r) = c.total.Count
      rw [icount, ← hsplit]
      exact h.count_eq
    · show sumSum (l ++ _ :: r) = c.total.Sum
      rw [isum, ← hsplit]
      exact h.sum_eq
    · intro b hb
      have hb' : (l ++ _ :: r).head? = some b := hb
      rw [hb'] at ihead
      cases hh : (l ++ b1 :: b2 :: r).head? with
      | none => rw [hh] at ihead; simp at ihead
      | some bh =>
        rw [hh] at ihead
        simp at ihead
        show b.Min = c.total.Min
        rw [ihead]
        exact h.head_min bh (by rw [hsplit]; exact hh)
    · intro b hb
      have hb' : (l ++ _ :: r).getLast? = some b := hb
      rw [hb'] at ilast
      cases hh : (l ++ b1 :: b2 :: r).getLast? with
      | none => rw [hh] at ilast; simp at ilast
      | some bh =>
        rw [hh] at ilast
        simp at ilast
        show b.Max = c.total.Max
        rw [ilast]
        exact h.last_max bh (by rw [hsplit]; exact hh)
    · show ((l ++ _ :: r).length : ℤ) ≤ c.BucketsLimit
      have h1 := h.len_le1
      rw [hlen_old] at h1 hm
      omega
  · rw [if_neg hm]
    exact ⟨⟨h.chain, h.good, h.count_eq, h.sum_eq, h.head_min, h.last_max,
      by omega, fun he => absurd he h.ne, fun _ => h.limit_pos⟩, h.ne, rfl, rfl⟩

/-- `Add` preserves the invariant and always leaves at least one bucket. -/
theorem add_inv (c : Collector) (v : ℚ) (h : Inv c) :
    Inv (c.Add v) ∧ (c.Add v).Buckets ≠ [] := by
  have hpre : PreInv (c.addBody v) :=
    addCore_preinv (c.addRaw v) v (inv_addRaw c v h)
  obtain ⟨hi, hne, _, _⟩ := mergeIfNeeded_inv (c.addBody v) hpre
  exact ⟨hi, hne⟩

/-- `runAdds` preserves the invariant. -/
theorem runAdds_inv (vs : List ℚ) :
    ∀ c : Collector, Inv c → Inv (runAdds c vs) := by
  induction vs with
  | nil => intro c h; exact h
  | cons v tl ih =>
    intro c h
    exact ih (c.Add v) (add_inv c v h).1

/-- A freshly constructed collector with a zero or positive limit satisfies
the invariant. -/
theorem mkCollector_inv (limit : ℤ) (wf : Option Weight) (raw : Bool)
    (h : limit = 0 ∨ 1 ≤ limit) : Inv (mkCollector limit wf raw) := by
  refine ⟨by simp [mkCollector, ChainLe], by simp [mkCollector], rfl, rfl,
    by simp [mkCollector], by simp [mkCollector], ?_, fun _ => h, fun hne => absurd rfl hne⟩
  show ((0 : ℕ) : ℤ) ≤ limit
  omega

theorem mergeIfNeeded_limit (c : Collector) :
    c.mergeIfNeeded.BucketsLimit = c.BucketsLimit := by
  unfold Collector.mergeIfNeeded
  split <;> rfl

/-- `Add` sets `BucketsLimit` only on the first insertion (lazily defaulting
`0` to `DefaultBucketsLimit`). -/
theorem add_limit (c : Collector) (v : ℚ) :
    (c.Add v).BucketsLimit
      = if c.Buckets = [] then (if c.BucketsLimit = 0 then DefaultBucketsLimit else c.BucketsLimit)
        else c.BucketsLimit := by
  show ((c.addRaw v).addCore v).mergeIfNeeded.BucketsLimit = _
  rw [mergeIfNeeded_limit]
  obtain ⟨hB, ht, hL, _⟩ := addRaw_fields c v
  unfold Collector.addCore
  by_cases he : c.Buckets = []
  · simp [hB, he, hL]
  · simp only [hB, he, if_neg, ite_false]
    by_cases h1 : v < c.total.Min
    · simp [ht, hL, h1]
    · simp only [ht, h1, ite_false]
      by_cases h2 : c.total.Max < v
      · simp [hL, h2]
      · simp [hL, h2]

/-- Once the collector has a bucket, further `Add`s never change the limit
and never empty the buckets. -/
theorem runAdds_keep (vs : List ℚ) :
    ∀ c : Collector, Inv c → c.Buckets ≠ [] →
    (runAdds c vs).BucketsLimit = c.BucketsLimit ∧ (runAdds c vs).Buckets ≠ [] := by
  induction vs with
  | nil => intro c _ hne; exact ⟨rfl, hne⟩
  | cons v tl ih =>
    intro c h hne
    obtain ⟨hinv, hne'⟩ := add_inv c v h
    obtain ⟨ih1, ih2⟩ := ih (c.Add v) hinv hne'
    refine ⟨?_, ih2⟩
    rw [show runAdds c (v :: tl) = runAdds (c.Add v) tl from rfl, ih1, add_limit, if_neg ?_]
    exact fun he => hne he

/-- After at least one `Add` from a fresh collector, the limit has its lazy
default and the bucket list is nonempty. -/
theorem runAdds_limit_eq (limit : ℤ) (wf : Option Weight) (raw : Bool)
    (h : limit = 0 ∨ 1 ≤ limit) (vs : List ℚ) (hne : vs ≠ []) :
    (runAdds (mkCollector limit wf raw) vs).BucketsLimit
        = (if limit = 0 then DefaultBucketsLimit else limit) ∧
    (runAdds (mkCollector limit wf raw) vs).Buckets ≠ [] := by
  obtain ⟨v, tl, rfl⟩ := List.exists_cons_of_ne_nil hne
  have h0 : Inv (mkCollector limit wf raw) := mkCollector_inv limit wf raw h
  obtain ⟨hinv, hne'⟩ := add_inv (mkCollector limit wf raw) v h0
  have hl : ((mkCollector limit wf raw).Add v).BucketsLimit
      = if limit = 0 then DefaultBucketsLimit else limit := by
    rw [add_limit]
    rfl
  obtain ⟨k1, k2⟩ := runAdds_keep tl _ hinv hne'
  exact ⟨by rw [show runAdds (mkCollector limit wf raw) (v :: tl)
      = runAdds ((mkCollector limit wf raw).Add v) tl from rfl, k1, hl], k2⟩

/-- C1: for every sequence of `Add` calls from a fresh collector whose
`BucketsLimit` is unset (zero) or at least `1`, after each `Add` returns the
number of buckets is at most `BucketsLimit`, where `BucketsLimit` has been
lazily defaulted to `20` on the first `Add` if it was zero. -/
theorem claim1_bucket_cap (limit : ℤ) (wf : Option Weight) (raw : Bool)
    (hlim : limit = 0 ∨ 1 ≤ limit) (vs : List ℚ) (v : ℚ) :
    (((runAdds (mkCollector limit wf raw) (vs ++ [v])).Buckets.length : ℤ)
      ≤ (runAdds (mkCollector limit wf raw) (vs ++ [v])).BucketsLimit) ∧
    (runAdds (mkCollector limit wf raw) (vs ++ [v])).BucketsLimit
      = (if limit = 0 then DefaultBucketsLimit else limit) := by
  have hinv : Inv (runAdds (mkCollector limit wf raw) (vs ++ [v])) :=
    runAdds_inv _ _ (mkCollector_inv limit wf raw hlim)
  exact ⟨hinv.len_le, (runAdds_limit_eq limit wf raw hlim _ (by simp)).1⟩

theorem claim1_bucket_cap_witness :
    ((2 : ℤ) = 0 ∨ 1 ≤ (2 : ℤ)) ∧
    ((((runAdds (mkCollector 2 none false) ([1, 5, 3, 4] ++ [2])).Buckets.length : ℤ)
      ≤ (runAdds (mkCollector 2 none false) ([1, 5, 3, 4] ++ [2])).BucketsLimit) ∧
    (runAdds (mkCollector 2 none false) ([1, 5, 3, 4] ++ [2])).BucketsLimit
      = (if (2 : ℤ) = 0 then DefaultBucketsLimit else 2)) :=
  ⟨Or.inr (by norm_num), claim1_bucket_cap 2 none false (Or.inr (by norm_num)) [1, 5, 3, 4] 2⟩

/-- C2: after every `Add` call the per-bucket `Count`s sum to the global
`Count` and the per-bucket `Sum`s sum to the global `Sum` (exactly, in the
rational model; floating-point execution matches within tolerance). -/
theorem claim2_totals (limit : ℤ) (wf : Option Weight) (raw : Bool)
    (hlim : limit = 0 ∨ 1 ≤ limit) (vs : List ℚ) :
    countSum (runAdds (mkCollector limit wf raw) vs).Buckets
      = (runAdds (mkCollector limit wf raw) vs).total.Count ∧
    sumSum (runAdds (mkCollector limit wf raw) vs).Buckets
      = (runAdds (mkCollector limit wf raw) vs).total.Sum := by
  have hinv : Inv (runAdds (mkCollector limit wf raw) vs) :=
    runAdds_inv _ _ (mkCollector_inv limit wf raw hlim)
  exact ⟨hinv.count_eq, hinv.sum_eq⟩

theorem claim2_totals_witness :
    ((2 : ℤ) = 0 ∨ 1 ≤ (2 : ℤ)) ∧
    (countSum (runAdds (mkCollector 2 none false) [1, 5, 3, 4, 2]).Buckets
      = (runAdds (mkCollector 2 none false) [1, 5, 3, 4, 2]).total.Count ∧
    sumSum (runAdds (mkCollector 2 none false) [1, 5, 3, 4, 2]).Buckets
      = (runAdds (mkCollector 2 none false) [1, 5, 3, 4, 2]).total.Sum) :=
  ⟨Or.inr (by norm_num), claim2_totals 2 none false (Or.inr (by norm_num)) [1, 5, 3, 4, 2]⟩

/-- A `ChainLe` list of well-formed buckets is also sorted ascending by
`Min`. -/
theorem chain_min_of_chain (bs : List Bucket) (hc : ChainLe bs)
    (hg : ∀ b ∈ bs, GoodB b) :
    List.Chain' (fun a b => a.Min ≤ b.Min) bs := by
  induction bs with
  | nil => simp
  | cons b tl ih =>
    obtain ⟨hhd, htl⟩ := List.chain'_cons'.mp hc
    refine List.chain'_cons'.mpr ⟨?_, ih htl fun x hx => hg x (by simp [hx])⟩
    intro y hy
    exact le_trans (hg b (by simp)).1 (hhd y hy)

/-- C3: after every `Add` call the buckets are sorted ascending by `Min`
with no overlaps (`Max` of one bucket at most `Min` of the next), and once a
value has been observed the first bucket's `Min` is the global `Min` and the
last bucket's `Max` is the global `Max`. -/
theorem claim3_sorted (limit : ℤ) (wf : Option Weight) (raw : Bool)
    (hlim : limit = 0 ∨ 1 ≤ limit) (vs : List ℚ) :
    List.Chain' (fun a b => a.Min ≤ b.Min) (runAdds (mkCollector limit wf raw) vs).Buckets ∧
    List.Chain' (fun a b => a.Max ≤ b.Min) (runAdds (mkCollector limit wf raw) vs).Buckets ∧
    (vs ≠ [] →
      (runAdds (mkCollector limit wf raw) vs).Buckets.head?.map Bucket.Min
          = some (runAdds (mkCollector limit wf raw) vs).total.Min ∧
      (runAdds (mkCollector limit wf raw) vs).Buckets.getLast?.map Bucket.Max
          = some (runAdds (mkCollector limit wf raw) vs).total.Max) := by
  have hinv : Inv (runAdds (mkCollector limit wf raw) vs) :=
    runAdds_inv _ _ (mkCollector_inv limit wf raw hlim)
  refine ⟨chain_min_of_chain _ hinv.chain hinv.good, hinv.chain, ?_⟩
  intro hne
  have hbne : (runAdds (mkCollector limit wf raw) vs).Buckets ≠ [] :=
    (runAdds_limit_eq limit wf raw hlim vs hne).2
  obtain ⟨b0, tl0, hb0⟩ := List.exists_cons_of_ne_nil hbne
  constructor
  · rw [hb0]
    simp only [List.head?_cons, Option.map_some']
    rw [hinv.head_min b0 (by rw [hb0]; rfl)]
  · obtain ⟨bl, hbl⟩ : ∃ bl, (runAdds (mkCollector limit wf raw) vs).Buckets.getLast? = some bl := by
      cases hgl : (runAdds (mkCollector limit wf raw) vs).Buckets.getLast? with
      | none => exact absurd (List.getLast?_eq_none_iff.mp hgl) hbne
      | some bl => exact ⟨bl, rfl⟩
    rw [hbl]
    simp only [Option.map_some']
    rw [hinv.last_max bl hbl]

theorem claim3_sorted_witness :
    ((2 : ℤ) = 0 ∨ 1 ≤ (2 : ℤ)) ∧
    (List.Chain' (fun a b => a.Min ≤ b.Min) (runAdds (mkCollector 2 none false) [1, 5, 3]).Buckets ∧
    List.Chain' (fun a b => a.Max ≤ b.Min) (runAdds (mkCollector 2 none false) [1, 5, 3]).Buckets ∧
    (([1, 5, 3] : List ℚ) ≠ [] →
      (runAdds (mkCollector 2 none false) [1, 5, 3]).Buckets.head?.map Bucket.Min
          = some (runAdds (mkCollector 2 none false) [1, 5, 3]).total.Min ∧
      (runAdds (mkCollector 2 none false) [1, 5, 3]).Buckets.getLast?.map Bucket.Max
          = some (runAdds (mkCollector 2 none false) [1, 5, 3]).total.Max)) :=
  ⟨Or.inr (by norm_num), claim3_sorted 2 none false (Or.inr (by norm_num)) [1, 5, 3]⟩

/-! Machinery for C4: the selected merge point is the first index attaining
the minimal adjacent-pair weight. -/

/-- The list of adjacent-pair weights `wf bs[i-1] bs[i] bTot`, for `i` from
`1` to `bs.length - 1`. -/
def pairWeights (wf : Weight) (bTot : Bucket) : List Bucket → List ℚ
  | b0 :: b1 :: tl => wf b0 b1 bTot :: pairWeights wf bTot (b1 :: tl)
  | _ => []

/-- Ghost version of `selectFrom` over the weight list, also tracking the
running minimum. -/
def argFromPair : List ℚ → ℕ → ℕ → ℚ → ℕ × ℚ
  | [], _, mergePoint, minWeight => (mergePoint, minWeight)
  | w :: tl, i, mergePoint, minWeight =>
    if mergePoint = 0 then argFromPair tl (i + 1) i w
    else if w < minWeight then argFromPair tl (i + 1) i w
    else argFromPair tl (i + 1) mergePoint minWeight

theorem selectFrom_eq_argFromPair (wf : Weight) (bTot : Bucket) :
    ∀ (rest : List Bucket) (prev : Bucket) (i mp : ℕ) (minW : ℚ),
    selectFrom wf bTot prev rest i mp minW
      = (argFromPair (pairWeights wf bTot (prev :: rest)) i mp minW).1 := by
  intro rest
  induction rest with
  | nil => intro prev i mp minW; rfl
  | cons b tl ih =>
    intro prev i mp minW
    show selectFrom wf bTot prev (b :: tl) i mp minW
      = (argFromPair (wf prev b bTot :: pairWeights wf bTot (b :: tl)) i mp minW).1
    by_cases h0 : mp = 0
    · simp only [selectFrom, argFromPair, h0, if_pos]
      exact ih b (i + 1) i (wf prev b bTot)
    · by_cases hlt : wf prev b bTot < minW
      · simp only [selectFrom, argFromPair, h0, hlt, if_false, if_true, ite_false, ite_true]
        exact ih b (i + 1) i (wf prev b bTot)
      · simp only [selectFrom, argFromPair, h0, hlt, if_false, ite_false]
        exact ih b (i + 1) mp minW

theorem pairWeights_length (wf : Weight) (bTot : Bucket) :
    ∀ bs : List Bucket, (pairWeights wf bTot bs).length = bs.length - 1 := by
  intro bs
  induction bs with
  | nil => rfl
  | cons b tl ih =>
    cases tl with
    | nil => rfl
    | cons b1 tl2 =>
      show (wf b b1 bTot :: pairWeights wf bTot (b1 :: tl2)).length = _
      simp only [List.length_cons] at ih ⊢
      omega

theorem pairWeights_getD (wf : Weight) (bTot : Bucket) :
    ∀ (l : List Bucket) (b1 b2 : Bucket) (r : List Bucket),
    (pairWeights wf bTot (l ++ b1 :: b2 :: r)).getD l.length 0 = wf b1 b2 bTot := by
  intro l
  induction l with
  | nil => intro b1 b2 r; rfl
  | cons a l ih =>
    intro b1 b2 r
    have hne : l ++ b1 :: b2 :: r ≠ [] := by simp
    obtain ⟨x, tl, hx⟩ := List.exists_cons_of_ne_nil hne
    show (pairWeights wf bTot (a :: (l ++ b1 :: b2 :: r))).getD (l.length + 1) 0 = _
    rw [hx]
    show (wf a x bTot :: pairWeights wf bTot (x :: tl)).getD (l.length + 1) 0 = _
    rw [List.getD_cons_succ, ← hx]
    exact ih b1 b2 r

/-- Behaviour of the scan once a merge point is established (`1 ≤ mp < i`):
the result is the first position attaining the running minimum. -/
theorem argFromPair_spec :
    ∀ (tl : List ℚ) (i mp : ℕ) (minW : ℚ), 1 ≤ mp → mp < i →
    ((argFromPair tl i mp minW).1 = mp ∧ (argFromPair tl i mp minW).2 = minW ∨
      (i ≤ (argFromPair tl i mp minW).1 ∧ (argFromPair tl i mp minW).1 < i + tl.length ∧
       (argFromPair tl i mp minW).2 = tl.getD ((argFromPair tl i mp minW).1 - i) 0 ∧
       (argFromPair tl i mp minW).2 < minW)) ∧
    ((argFromPair tl i mp minW).2 ≤ minW ∧
      ∀ k, k < tl.length → (argFromPair tl i mp minW).2 ≤ tl.getD k 0) ∧
    (∀ k, i + k < (argFromPair tl i mp minW).1 → (argFromPair tl i mp minW).2 < tl.getD k 0) := by
  intro tl
  induction tl with
  | nil =>
    intro i mp minW h1 h2
    refine ⟨Or.inl ⟨rfl, rfl⟩, ⟨le_refl _, by simp⟩, ?_⟩
    intro k hk
    simp only [argFromPair] at hk
    omega
  | cons w tl ih =>
    intro i mp minW h1 h2
    have h0 : ¬ (mp = 0) := by omega
    by_cases hlt : w < minW
    · have hred : argFromPair (w :: tl) i mp minW = argFromPair tl (i + 1) i w := by
        simp [argFromPair, h0, hlt]
      rw [hred]
      obtain ⟨hA, ⟨hB1, hB2⟩, hC⟩ := ih (i + 1) i w (by omega) (by omega)
      refine ⟨?_, ⟨?_, ?_⟩, ?_⟩
      · rcases hA with ⟨hr, hw⟩ | ⟨hr1, hr2, hw, hwlt⟩
        · refine Or.inr ⟨by omega, by simp; omega, ?_, by rw [hw]; exact hlt⟩
          rw [hr]
          simp [hw]
        · refine Or.inr ⟨by omega, by simp; omega, ?_, lt_trans hwlt hlt⟩
          have hk : (argFromPair tl (i + 1) i w).1 - i = ((argFromPair tl (i + 1) i w).1 - (i + 1)) + 1 := by
            omega
          rw [hk, List.getD_cons_succ]
          exact hw
      · exact le_trans hB1 (le_of_lt hlt)
      · intro k hk
        cases k with
        | zero => exact hB1
        | succ k' =>
          rw [List.getD_cons_succ]
          exact hB2 k' (by simpa using hk)
      · intro k hk
        cases k with
        | zero =>
          rcases hA with ⟨hr, hw⟩ | ⟨hr1, hr2, hw, hwlt⟩
          · omega
          · exact hwlt
        | succ k' =>
          rw [List.getD_cons_succ]
          exact hC k' (by omega)
    · have hred : argFromPair (w :: tl) i mp minW = argFromPair tl (i + 1) mp minW := by
        simp [argFromPair, h0, hlt]
      rw [hred]
      obtain ⟨hA, ⟨hB1, hB2⟩, hC⟩ := ih (i + 1) mp minW h1 (by omega)
      have hwge : minW ≤ w := le_of_not_lt hlt
      refine ⟨?_, ⟨hB1, ?_⟩, ?_⟩
      · rcases hA with ⟨hr, hw⟩ | ⟨hr1, hr2, hw, hwlt⟩
        · exact Or.inl ⟨hr, hw⟩
        · refine Or.inr ⟨by omega, by simp; omega, ?_, hwlt⟩
          have hk : (argFromPair tl (i + 1) mp minW).1 - i
              = ((argFromPair tl (i + 1) mp minW).1 - (i + 1)) + 1 := by omega
          rw [hk, List.getD_cons_succ]
          exact hw
      · intro k hk
        cases k with
        | zero => exact le_trans hB1 hwge
        | succ k' =>
          rw [List.getD_cons_succ]
          exact hB2 k' (by simpa using hk)
      · intro k hk
        cases k with
        | zero =>
          rcases hA with ⟨hr, hw⟩ | ⟨hr1, hr2, hw, hwlt⟩
          · omega
          · exact lt_of_lt_of_le hwlt hwge
        | succ k' =>
          rw [List.getD_cons_succ]
          exact hC k' (by omega)

/-- The merge point of lines 78–94 is the first adjacent pair attaining the
minimal weight: weakly below every pair's weight, strictly below every
earlier pair's weight. -/
theorem selectMergePoint_spec (wf : Weight) (bTot : Bucket) (bs : List Bucket)
    (h2 : 2 ≤ bs.length) :
    1 ≤ selectMergePoint wf bTot bs ∧
    selectMergePoint wf bTot bs ≤ (pairWeights wf bTot bs).length ∧
    (∀ j, 1 ≤ j → j ≤ (pairWeights wf bTot bs).length →
      (pairWeights wf bTot bs).getD (selectMergePoint wf bTot bs - 1) 0
        ≤ (pairWeights wf bTot bs).getD (j - 1) 0) ∧
    (∀ j, 1 ≤ j → j < selectMergePoint wf bTot bs →
      (pairWeights wf bTot bs).getD (selectMergePoint wf bTot bs - 1) 0
        < (pairWeights wf bTot bs).getD (j - 1) 0) := by
  match bs, h2 with
  | b0 :: b1 :: tl, _ =>
    have hsel : selectMergePoint wf bTot (b0 :: b1 :: tl)
        = (argFromPair (pairWeights wf bTot (b0 :: b1 :: tl)) 1 0 0).1 := by
      show selectFrom wf bTot b0 (b1 :: tl) 1 0 0 = _
      exact selectFrom_eq_argFromPair wf bTot (b1 :: tl) b0 1 0 0
    set w0 := wf b0 b1 bTot with hw0
    set ws' := pairWeights wf bTot (b1 :: tl) with hws'
    have hshape : pairWeights wf bTot (b0 :: b1 :: tl) = w0 :: ws' := rfl
    have hstep : argFromPair (w0 :: ws') 1 0 0 = argFromPair ws' 2 1 w0 := by
      simp [argFromPair]
    obtain ⟨hA, ⟨hB1, hB2⟩, hC⟩ := argFromPair_spec ws' 2 1 w0 (by omega) (by omega)
    rw [hsel, hshape, hstep]
    set r := argFromPair ws' 2 1 w0 with hr
    have hval : r.2 = (w0 :: ws').getD (r.1 - 1) 0 := by
      rcases hA with ⟨h1, h2'⟩ | ⟨h1, h2', h3, h4⟩
      · rw [h1, h2']
        rfl
      · have hk : r.1 - 1 = (r.1 - 2) + 1 := by omega
        rw [hk, List.getD_cons_succ]
        exact h3
    have hmp1 : 1 ≤ r.1 := by
      rcases hA with ⟨h1, _⟩ | ⟨h1, _, _, _⟩ <;> omega
    have hmp2 : r.1 ≤ (w0 :: ws').length := by
      rcases hA with ⟨h1, _⟩ | ⟨h1, h2', _, _⟩ <;> simp <;> omega
    refine ⟨hmp1, hmp2, ?_, ?_⟩
    · intro j hj1 hj2
      rw [← hval]
      cases j with
      | zero => omega
      | succ j' =>
        cases j' with
        | zero => exact le_trans hB1 (by rfl)
        | succ j'' =>
          have : (w0 :: ws').getD (j'' + 2 - 1) 0 = ws'.getD j'' 0 := by
            rw [show j'' + 2 - 1 = j'' + 1 from rfl, List.getD_cons_succ]
          rw [this]
          refine hB2 j'' ?_
          simp at hj2
          omega
    · intro j hj1 hjlt
      rw [← hval]
      cases j with
      | zero => omega
      | succ j' =>
        cases j' with
        | zero =>
          rcases hA with ⟨h1, _⟩ | ⟨_, _, _, h4⟩
          · omega
          · exact h4
        | succ j'' =>
          have : (w0 :: ws').getD (j'' + 2 - 1) 0 = ws'.getD j'' 0 := by
            rw [show j'' + 2 - 1 = j'' + 1 from rfl, List.getD_cons_succ]
          rw [this]
          exact hC j'' (by omega)

/-- C4: whenever an `Add` call leaves more buckets than `BucketsLimit`,
exactly one merge runs: the selected pair's weight is weakly minimal among
all adjacent pairs and strictly below every earlier pair's weight (leftmost
wins ties, first-seen minimum retained), and the pair is replaced in place by
one bucket with `Min` of the left, `Max` of the right and the sums of the
`Count`s and `Sum`s, so the bucket count drops by exactly one. -/
theorem claim4_merge (c : Collector) (v : ℚ)
    (hlim : 1 ≤ (c.addBody v).BucketsLimit)
    (hover : (c.addBody v).BucketsLimit < ((c.addBody v).Buckets.length : ℤ)) :
    1 ≤ selectMergePoint ((c.addBody v).WeightFunc.getD AvgWidth) (c.addBody v).total (c.addBody v).Buckets ∧
    selectMergePoint ((c.addBody v).WeightFunc.getD AvgWidth) (c.addBody v).total (c.addBody v).Buckets
      ≤ (pairWeights ((c.addBody v).WeightFunc.getD AvgWidth) (c.addBody v).total (c.addBody v).Buckets).length ∧
    (∀ j, 1 ≤ j →
      j ≤ (pairWeights ((c.addBody v).WeightFunc.getD AvgWidth) (c.addBody v).total (c.addBody v).Buckets).length →
      (pairWeights ((c.addBody v).WeightFunc.getD AvgWidth) (c.addBody v).total (c.addBody v).Buckets).getD
          (selectMergePoint ((c.addBody v).WeightFunc.getD AvgWidth) (c.addBody v).total (c.addBody v).Buckets - 1) 0
        ≤ (pairWeights ((c.addBody v).WeightFunc.getD AvgWidth) (c.addBody v).total (c.addBody v).Buckets).getD (j - 1) 0) ∧
    (∀ j, 1 ≤ j →
      j < selectMergePoint ((c.addBody v).WeightFunc.getD AvgWidth) (c.addBody v).total (c.addBody v).Buckets →
      (pairWeights ((c.addBody v).WeightFunc.getD AvgWidth) (c.addBody v).total (c.addBody v).Buckets).getD
          (selectMergePoint ((c.addBody v).WeightFunc.getD AvgWidth) (c.addBody v).total (c.addBody v).Buckets - 1) 0
        < (pairWeights ((c.addBody v).WeightFunc.getD AvgWidth) (c.addBody v).total (c.addBody v).Buckets).getD (j - 1) 0) ∧
    (∃ l b1 b2 r, (c.addBody v).Buckets = l ++ b1 :: b2 :: r ∧
      l.length = selectMergePoint ((c.addBody v).WeightFunc.getD AvgWidth) (c.addBody v).total (c.addBody v).Buckets - 1 ∧
      (pairWeights ((c.addBody v).WeightFunc.getD AvgWidth) (c.addBody v).total (c.addBody v).Buckets).getD l.length 0
        = ((c.addBody v).WeightFunc.getD AvgWidth) b1 b2 (c.addBody v).total ∧
      (c.Add v).Buckets = l ++ { Min := b1.Min, Max := b2.Max,
                                 Count := b1.Count + b2.Count, Sum := b1.Sum + b2.Sum } :: r) ∧
    (c.Add v).Buckets.length + 1 = (c.addBody v).Buckets.length := by
  have h2len : 2 ≤ (c.addBody v).Buckets.length := by omega
  obtain ⟨hge1, hle, hmin, hstrict⟩ :=
    selectMergePoint_spec ((c.addBody v).WeightFunc.getD AvgWidth) (c.addBody v).total
      (c.addBody v).Buckets h2len
  have hltlen : selectMergePoint ((c.addBody v).WeightFunc.getD AvgWidth) (c.addBody v).total
      (c.addBody v).Buckets < (c.addBody v).Buckets.length := by
    have := pairWeights_length ((c.addBody v).WeightFunc.getD AvgWidth) (c.addBody v).total
      (c.addBody v).Buckets
    omega
  obtain ⟨l, b1, b2, r, hsplit, hlen⟩ := exists_split (c.addBody v).Buckets _ hge1 hltlen
  have hm1 : selectMergePoint ((c.addBody v).WeightFunc.getD AvgWidth) (c.addBody v).total
      (c.addBody v).Buckets = l.length + 1 := by omega
  have hadd : (c.Add v).Buckets = mergeAt (c.addBody v).Buckets
      (selectMergePoint ((c.addBody v).WeightFunc.getD AvgWidth) (c.addBody v).total
        (c.addBody v).Buckets) := by
    show ((c.addBody v).mergeIfNeeded).Buckets = _
    unfold Collector.mergeIfNeeded
    rw [if_pos hover]
  have hmerge : (c.Add v).Buckets
      = l ++ { Min := b1.Min, Max := b2.Max,
               Count := b1.Count + b2.Count, Sum := b1.Sum + b2.Sum } :: r := by
    rw [hadd, hm1, hsplit, mergeAt_append]
  refine ⟨hge1, hle, hmin, hstrict, ⟨l, b1, b2, r, hsplit, hlen, ?_, hmerge⟩, ?_⟩
  · rw [hsplit]
    exact pairWeights_getD _ _ l b1 b2 r
  · rw [hmerge, hsplit]
    simp only [List.length_append, List.length_cons]
    omega

theorem claim4_merge_witness :
    (1 ≤ ((runAdds (mkCollector 2 none false) [1, 5]).addBody 3).BucketsLimit ∧
     ((runAdds (mkCollector 2 none false) [1, 5]).addBody 3).BucketsLimit
       < (((runAdds (mkCollector 2 none false) [1, 5]).addBody 3).Buckets.length : ℤ)) ∧
    ((runAdds (mkCollector 2 none false) [1, 5]).Add 3).Buckets.length + 1
      = ((runAdds (mkCollector 2 none false) [1, 5]).addBody 3).Buckets.length :=
  ⟨⟨by decide, by decide⟩,
    (claim4_merge (runAdds (mkCollector 2 none false) [1, 5]) 3 (by decide) (by decide)).2.2.2.2.2⟩

/-! Spec-side descriptions of the two query operations (C5, C7), written
from the specification's words, to be compared with the source
translation. -/

/-- Spec: `target = floor(p * Count / 100)`. -/
def percentileTarget (p : ℚ) (count : ℤ) : ℤ := ⌊p * (count : ℚ) / 100⌋

/-- Spec: scan buckets ascending, accumulating `Count`; the `Max` of the
first bucket at which the running total reaches or exceeds the target, if
any. -/
def specFirstReach (t : ℤ) : ℤ → List Bucket → Option ℚ
  | _, [] => none
  | acc, b :: tl => if t ≤ acc + b.Count then some b.Max else specFirstReach t (acc + b.Count) tl

/-- Spec description of `Percentile`: the `Max` of the first bucket at which
the running count reaches the target, else the global `Max`. -/
def Collector.percentileDescr (c : Collector) (p : ℚ) : ℚ :=
  match specFirstReach (percentileTarget p c.total.Count) 0 c.Buckets with
  | some m => m
  | none => c.total.Max

/-- Spec: accumulate both `Count` and `Sum`; the accumulated `Sum` at the
first bucket where the running count reaches the target, if any. -/
def specFirstReachSum (t : ℤ) : ℤ → ℚ → List Bucket → Option ℚ
  | _, _, [] => none
  | acc, s, b :: tl =>
    if t ≤ acc + b.Count then some (s + b.Sum)
    else specFirstReachSum t (acc + b.Count) (s + b.Sum) tl

/-- Spec description of `PercentileSum`: the accumulated `Sum` at the first
bucket where the running count reaches the target, else the global `Sum`. -/
def Collector.percentileSumDescr (c : Collector) (p : ℚ) : ℚ :=
  match specFirstReachSum (percentileTarget p c.total.Count) 0 0 c.Buckets with
  | some s => s
  | none => c.total.Sum

theorem truncQ_eq_floor (q : ℚ) (h : 0 ≤ q) : truncQ q = ⌊q⌋ := if_pos h

theorem percentileLoop_eq_descr (t : ℤ) (M : ℚ) :
    ∀ (bs : List Bucket) (acc : ℤ),
    percentileLoop t M acc bs
      = (match specFirstReach t acc bs with | some m => m | none => M) := by
  intro bs
  induction bs with
  | nil => intro acc; rfl
  | cons b tl ih =>
    intro acc
    show (if t ≤ acc + b.Count then b.Max else percentileLoop t M (acc + b.Count) tl) = _
    by_cases h : t ≤ acc + b.Count
    · simp [specFirstReach, h]
    · simp only [specFirstReach, h, if_neg, ite_false]
      exact ih (acc + b.Count)

theorem percentileSumLoop_eq_descr (t : ℤ) (S : ℚ) :
    ∀ (bs : List Bucket) (acc : ℤ) (s : ℚ),
    percentileSumLoop t S acc s bs
      = (match specFirstReachSum t acc s bs with | some x => x | none => S) := by
  intro bs
  induction bs with
  | nil => intro acc s; rfl
  | cons b tl ih =>
    intro acc s
    show (if t ≤ acc + b.Count then s + b.Sum else percentileSumLoop t S (acc + b.Count) (s + b.Sum) tl) = _
    by_cases h : t ≤ acc + b.Count
    · simp [specFirstReachSum, h]
    · simp only [specFirstReachSum, h, if_neg, ite_false]
      exact ih (acc + b.Count) (s + b.Sum)

theorem percentile_target_trunc (c : Collector) (p : ℚ) (hp : 0 ≤ p)
    (hc : 0 ≤ c.total.Count) :
    truncQ (p * (c.total.Count : ℚ) / 100) = percentileTarget p c.total.Count := by
  refine truncQ_eq_floor _ ?_
  have : (0 : ℚ) ≤ (c.total.Count : ℚ) := by exact_mod_cast hc
  positivity

/-- C5: for every collector state with nonnegatively many observations and
`p ≥ 0`, `Percentile p` computes the target `floor(p * Count / 100)`, scans
buckets in ascending order accumulating counts, and returns the `Max` of the
first bucket whose running count reaches the target, the global `Max` when
the target is never reached; on an empty (zero-state) collector it returns
`0` (the embedding is a pure function, so no state is mutated and no
division by zero can occur). -/
theorem claim5_percentile (c : Collector) (p : ℚ) (hp : 0 ≤ p)
    (hc : 0 ≤ c.total.Count) :
    c.Percentile p = c.percentileDescr p ∧
    (∀ (limit : ℤ) (wf : Option Weight) (raw : Bool),
      (mkCollector limit wf raw).Percentile p = 0) := by
  constructor
  · show percentileLoop (truncQ (p * (c.total.Count : ℚ) / 100)) c.total.Max 0 c.Buckets = _
    rw [percentile_target_trunc c p hp hc, percentileLoop_eq_descr]
    rfl
  · intro limit wf raw
    rfl

theorem claim5_percentile_witness :
    (0 ≤ (50 : ℚ)) ∧ (0 ≤ (runAdds (mkCollector 2 none false) [1, 5, 3]).total.Count) ∧
    ((runAdds (mkCollector 2 none false) [1, 5, 3]).Percentile 50
        = (runAdds (mkCollector 2 none false) [1, 5, 3]).percentileDescr 50 ∧
      (∀ (limit : ℤ) (wf : Option Weight) (raw : Bool),
        (mkCollector limit wf raw).Percentile 50 = 0)) :=
  ⟨by norm_num, by decide,
    claim5_percentile (runAdds (mkCollector 2 none false) [1, 5, 3]) 50 (by norm_num) (by decide)⟩

/-- C7: for every collector state with nonnegatively many observations and
`p ≥ 0`, `PercentileSum p` computes the same target as `Percentile`, scans
buckets ascending accumulating both `Count` and `Sum`, and returns the
accumulated `Sum` at the first bucket whose running count reaches the
target, the global `Sum` when the target is never reached; on an empty
(zero-state) collector it returns `0`. -/
theorem claim7_percentile_sum (c : Collector) (p : ℚ) (hp : 0 ≤ p)
    (hc : 0 ≤ c.total.Count) :
    c.PercentileSum p = c.percentileSumDescr p ∧
    (∀ (limit : ℤ) (wf : Option Weight) (raw : Bool),
      (mkCollector limit wf raw).PercentileSum p = 0) := by
  constructor
  · show percentileSumLoop (truncQ (p * (c.total.Count : ℚ) / 100)) c.total.Sum 0 0 c.Buckets = _
    rw [percentile_target_trunc c p hp hc, percentileSumLoop_eq_descr]
    rfl
  · intro limit wf raw
    rfl

theorem claim7_percentile_sum_witness :
    (0 ≤ (50 : ℚ)) ∧ (0 ≤ (runAdds (mkCollector 2 none false) [1, 5, 3]).total.Count) ∧
    ((runAdds (mkCollector 2 none false) [1, 5, 3]).PercentileSum 50
        = (runAdds (mkCollector 2 none false) [1, 5, 3]).percentileSumDescr 50 ∧
      (∀ (limit : ℤ) (wf : Option Weight) (raw : Bool),
        (mkCollector limit wf raw).PercentileSum 50 = 0)) :=
  ⟨by norm_num, by decide,
    claim7_percentile_sum (runAdds (mkCollector 2 none false) [1, 5, 3]) 50 (by norm_num) (by decide)⟩

/-! Machinery for C8: `Percentile` is monotone in `p` on invariant states. -/

/-- In a sorted chain of well-formed buckets, every later bucket's `Min` is
at least the head's `Max`. -/
theorem chainle_le_all_min (b : Bucket) (tl : List Bucket) :
    ChainLe (b :: tl) → (∀ x ∈ tl, GoodB x) → ∀ x ∈ tl, b.Max ≤ x.Min := by
  induction tl generalizing b with
  | nil => intro _ _ x hx; simp at hx
  | cons x tl2 ih =>
    intro hch hg y hy
    obtain ⟨hbx, htl⟩ := List.chain'_cons.mp hch
    rcases List.mem_cons.mp hy with rfl | hy
    · exact hbx
    · refine le_trans hbx (le_trans (hg x (by simp)).1 ?_)
      exact ih x htl (fun z hz => hg z (by simp [hz])) y hy

theorem countSum_nonneg (bs : List Bucket) (hg : ∀ b ∈ bs, GoodB b) :
    0 ≤ countSum bs := by
  induction bs with
  | nil => simp [countSum_nil]
  | cons b tl ih =>
    rw [countSum_cons]
    have h1 := (hg b (by simp)).2
    have h2 := ih fun x hx => hg x (by simp [hx])
    omega

/-- Lower bound for the percentile scan: if every bucket's `Max` and the
fallback are at least `lb`, so is the result. -/
theorem percentileLoop_lb (t : ℤ) (M lb : ℚ) :
    ∀ (bs : List Bucket) (acc : ℤ),
    (∀ b ∈ bs, lb ≤ b.Max) → lb ≤ M → lb ≤ percentileLoop t M acc bs := by
  intro bs
  induction bs with
  | nil => intro acc _ hM; exact hM
  | cons b tl ih =>
    intro acc hb hM
    show lb ≤ (if t ≤ acc + b.Count then b.Max else percentileLoop t M (acc + b.Count) tl)
    by_cases h : t ≤ acc + b.Count
    · rw [if_pos h]; exact hb b (by simp)
    · rw [if_neg h]; exact ih (acc + b.Count) (fun x hx => hb x (by simp [hx])) hM

/-- The percentile scan is monotone in the target on sorted, max-bounded
bucket lists. -/
theorem percentileLoop_mono (t1 t2 : ℤ) (M : ℚ) (h12 : t1 ≤ t2) :
    ∀ (bs : List Bucket) (acc : ℤ), ChainLe bs → (∀ b ∈ bs, GoodB b) →
    (∀ b ∈ bs, b.Max ≤ M) →
    percentileLoop t1 M acc bs ≤ percentileLoop t2 M acc bs := by
  intro bs
  induction bs with
  | nil => intro acc _ _ _; exact le_refl M
  | cons b tl ih =>
    intro acc hch hg hM
    show (if t1 ≤ acc + b.Count then b.Max else _)
        ≤ (if t2 ≤ acc + b.Count then b.Max else _)
    by_cases h2 : t2 ≤ acc + b.Count
    · rw [if_pos h2, if_pos (le_trans h12 h2)]
    · rw [if_neg h2]
      by_cases h1 : t1 ≤ acc + b.Count
      · rw [if_pos h1]
        refine percentileLoop_lb t2 M b.Max tl (acc + b.Count) ?_ (hM b (by simp))
        intro x hx
        exact le_trans (chainle_le_all_min b tl hch (fun z hz => hg z (by simp [hz])) x hx)
          (hg x (by simp [hx])).1
      · rw [if_neg h1]
        exact ih (acc + b.Count) (List.Chain'.tail hch) (fun x hx => hg x (by simp [hx]))
          (fun x hx => hM x (by simp [hx]))

/-- In a sorted chain of well-formed buckets, every bucket's `Max` is at
most the last bucket's `Max`. -/
theorem all_le_getLast_max :
    ∀ (bs : List Bucket), ChainLe bs → (∀ x ∈ bs, GoodB x) →
    ∀ bl, bs.getLast? = some bl → ∀ b ∈ bs, b.Max ≤ bl.Max := by
  intro bs
  induction bs with
  | nil => intro _ _ bl hbl; simp at hbl
  | cons b0 tl ih =>
    intro hch hg bl hbl b hb
    cases tl with
    | nil =>
      simp at hbl hb
      subst hbl
      subst hb
      exact le_refl _
    | cons x tl2 =>
      rw [List.getLast?_cons_cons] at hbl
      rcases List.mem_cons.mp hb with rfl | hb'
      · have hblmem : bl ∈ x :: tl2 := List.mem_of_mem_getLast? hbl
        have h1 := chainle_le_all_min b (x :: tl2) hch (fun z hz => hg z (by simp [hz])) bl hblmem
        exact le_trans h1 (hg bl (by simp [hblmem])).1
      · exact ih (List.Chain'.tail hch) (fun z hz => hg z (by simp [hz])) bl hbl b hb'

/-- C8: on every state reachable by `Add` calls (from a fresh collector with
an unset or positive limit) and for all `0 ≤ p1 ≤ p2`, `Percentile p1 ≤
Percentile p2`. -/
theorem claim8_percentile_mono (limit : ℤ) (wf : Option Weight) (raw : Bool)
    (hlim : limit = 0 ∨ 1 ≤ limit) (vs : List ℚ) (p1 p2 : ℚ)
    (hp1 : 0 ≤ p1) (hp12 : p1 ≤ p2) :
    (runAdds (mkCollector limit wf raw) vs).Percentile p1
      ≤ (runAdds (mkCollector limit wf raw) vs).Percentile p2 := by
  have hinv : Inv (runAdds (mkCollector limit wf raw) vs) :=
    runAdds_inv _ _ (mkCollector_inv limit wf raw hlim)
  set c := runAdds (mkCollector limit wf raw) vs with hc
  have hc0 : (0 : ℚ) ≤ (c.total.Count : ℚ) := by
    have := countSum_nonneg c.Buckets hinv.good
    have := hinv.count_eq
    exact_mod_cast by omega
  have htarget : truncQ (p1 * (c.total.Count : ℚ) / 100)
      ≤ truncQ (p2 * (c.total.Count : ℚ) / 100) := by
    have ha : (0 : ℚ) ≤ p1 * (c.total.Count : ℚ) / 100 := by positivity
    have hb : p1 * (c.total.Count : ℚ) / 100 ≤ p2 * (c.total.Count : ℚ) / 100 := by
      have : p1 * (c.total.Count : ℚ) ≤ p2 * (c.total.Count : ℚ) :=
        mul_le_mul_of_nonneg_right hp12 hc0
      linarith
    rw [truncQ_eq_floor _ ha, truncQ_eq_floor _ (le_trans ha hb)]
    exact Int.floor_le_floor hb
  have hMb : ∀ b ∈ c.Buckets, b.Max ≤ c.total.Max := by
    intro b hb
    obtain ⟨bl, hbl⟩ : ∃ bl, c.Buckets.getLast? = some bl := by
      cases hgl : c.Buckets.getLast? with
      | none =>
        rw [List.getLast?_eq_none_iff.mp hgl] at hb
        simp at hb
      | some bl => exact ⟨bl, rfl⟩
    have hblmax : bl.Max = c.total.Max := hinv.last_max bl hbl
    rw [← hblmax]
    exact all_le_getLast_max c.Buckets hinv.chain hinv.good bl hbl b hb
  show percentileLoop (truncQ (p1 * (c.total.Count : ℚ) / 100)) c.total.Max 0 c.Buckets
    ≤ percentileLoop (truncQ (p2 * (c.total.Count : ℚ) / 100)) c.total.Max 0 c.Buckets
  exact percentileLoop_mono _ _ c.total.Max htarget c.Buckets 0 hinv.chain hinv.good hMb

theorem claim8_percentile_mono_witness :
    (((2 : ℤ) = 0 ∨ 1 ≤ (2 : ℤ)) ∧ 0 ≤ (30 : ℚ) ∧ (30 : ℚ) ≤ 80) ∧
    (runAdds (mkCollector 2 none false) [1, 5, 3]).Percentile 30
      ≤ (runAdds (mkCollector 2 none false) [1, 5, 3]).Percentile 80 :=
  ⟨⟨Or.inr (by norm_num), by norm_num, by norm_num⟩,
    claim8_percentile_mono 2 none false (Or.inr (by norm_num)) [1, 5, 3] 30 80
      (by norm_num) (by norm_num)⟩

/-! Machinery for C9: when every inserted value fits, the buckets are
exactly the distinct values with their multiplicities. -/

/-- The collector's buckets are exactly one singleton bucket per distinct
value of `vs`, with `Count` the multiplicity and `Sum = Count * value`. -/
def Single (vs : List ℚ) (c : Collector) : Prop :=
  (∀ b ∈ c.Buckets,
    b.Min = b.Max ∧ b.Count = (vs.count b.Min : ℤ) ∧ b.Sum = (vs.count b.Min : ℚ) * b.Min) ∧
  (∀ q : ℚ, q ∈ c.Buckets.map Bucket.Min ↔ q ∈ vs) ∧
  (c.Buckets.map Bucket.Min).Nodup ∧
  c.Buckets.length = vs.toFinset.card

theorem toFinset_append_singleton (w : List ℚ) (u : ℚ) :
    (w ++ [u]).toFinset = insert u w.toFinset := by
  rw [List.toFinset_append, Finset.union_comm]
  exact (Finset.insert_eq u w.toFinset).symm

theorem toFinset_card_append_singleton (w : List ℚ) (u : ℚ) :
    (w ++ [u]).toFinset.card
      = (if u ∈ w then w.toFinset.card else w.toFinset.card + 1) := by
  rw [toFinset_append_singleton]
  by_cases h : u ∈ w
  · rw [if_pos h, Finset.insert_eq_self.mpr (by simpa using h)]
  · rw [if_neg h, Finset.card_insert_of_not_mem (by simpa using h)]

/-- On a sorted list of singleton buckets, the scan of `Add` either counts
`u` into the unique bucket `[u, u]` or inserts a fresh singleton bucket at
the correct position, provided `u` does not exceed the last `Max`. -/
theorem insertLoop_shape (u : ℚ) :
    ∀ bs : List Bucket, ChainLe bs → (∀ b ∈ bs, GoodB b) → (∀ b ∈ bs, b.Min = b.Max) →
    (∀ bl, bs.getLast? = some bl → u ≤ bl.Max) → bs ≠ [] →
    (∃ l b r, bs = l ++ b :: r ∧ b.Min = u ∧
       insertLoop u bs = l ++ { b with Count := b.Count + 1, Sum := b.Sum + u } :: r) ∨
    (u ∉ bs.map Bucket.Min ∧ ∃ l r, bs = l ++ r ∧
       insertLoop u bs = l ++ { Min := u, Max := u, Count := 1, Sum := u } :: r) := by
  intro bs
  induction bs with
  | nil => intro _ _ _ _ hne; exact absurd rfl hne
  | cons b tl ih =>
    intro hch hg hsingle hlast _
    by_cases hbmin : b.Min ≤ u
    · by_cases hbmax : u ≤ b.Max
      · -- `u` lands in `b`, and `b` is a singleton, so `b.Min = u`
        have hbu : b.Min = u := le_antisymm hbmin (by rw [hsingle b (by simp)]; exact hbmax)
        refine Or.inl ⟨[], b, tl, rfl, hbu, ?_⟩
        simp [insertLoop, hbmin, hbmax]
      · -- `u` is beyond `b`; recurse
        have htlne : tl ≠ [] := by
          rintro rfl
          exact hbmax (hlast b (by simp))
        have hloop : insertLoop u (b :: tl) = b :: insertLoop u tl := by
          simp [insertLoop, hbmin, hbmax]
        have hbu : b.Max < u := lt_of_not_le hbmax
        obtain ihc | ihc := ih (List.Chain'.tail hch) (fun x hx => hg x (by simp [hx]))
            (fun x hx => hsingle x (by simp [hx]))
            (fun bl hbl => hlast bl (by
              obtain ⟨x, tl2, rfl⟩ := List.exists_cons_of_ne_nil htlne
              rw [List.getLast?_cons_cons]
              exact hbl)) htlne
        · obtain ⟨l, b', r, hsp, hb'u, hres⟩ := ihc
          refine Or.inl ⟨b :: l, b', r, by rw [hsp, List.cons_append], hb'u, ?_⟩
          rw [hloop, hres, List.cons_append]
        · obtain ⟨hnm, l, r, hsp, hres⟩ := ihc
          refine Or.inr ⟨?_, b :: l, r, by rw [hsp, List.cons_append], ?_⟩
          · intro hmem
            simp only [List.map_cons, List.mem_cons] at hmem
            rcases hmem with h | h
            · have hub : u = b.Max := h.trans (hsingle b (by simp))
              rw [← hub] at hbu
              exact lt_irrefl u hbu
            · exact hnm h
          · rw [hloop, hres, List.cons_append]
    · -- `u` goes before `b`
      have hub : u < b.Min := lt_of_not_le hbmin
      refine Or.inr ⟨?_, [], b :: tl, rfl, ?_⟩
      · intro hmem
        simp only [List.map_cons, List.mem_cons] at hmem
        rcases hmem with h | h
        · rw [h] at hub
          exact lt_irrefl _ hub
        · obtain ⟨x, hx, hxu⟩ := List.mem_map.mp h
          have h1 := chainle_le_all_min b tl hch (fun z hz => hg z (by simp [hz])) x hx
          have h2 := (hg b (by simp)).1
          rw [hxu] at h1
          linarith
      · simp [insertLoop, hbmin]

theorem count_append_singleton_ne (w : List ℚ) (u q : ℚ) (h : q ≠ u) :
    (w ++ [u]).count q = w.count q := by
  have h0 : ([u] : List ℚ).count q = 0 := List.count_eq_zero.mpr (by simp [h])
  rw [List.count_append, h0]
  omega

theorem count_append_singleton_eq (w : List ℚ) (u : ℚ) :
    (w ++ [u]).count u = w.count u + 1 := by
  rw [List.count_append]
  simp

theorem inv_min_le_bucket (c : Collector) (h : Inv c) :
    ∀ b ∈ c.Buckets, c.total.Min ≤ b.Min := by
  intro b hb
  cases hB : c.Buckets with
  | nil => rw [hB] at hb; simp at hb
  | cons b0 tl =>
    have hhm : b0.Min = c.total.Min := h.head_min b0 (by rw [hB]; rfl)
    rw [hB] at hb
    rcases List.mem_cons.mp hb with rfl | hb'
    · exact le_of_eq hhm.symm
    · have hch : ChainLe (b0 :: tl) := hB ▸ h.chain
      have h1 := chainle_le_all_min b0 tl hch
        (fun z hz => h.good z (by rw [hB]; simp [hz])) b hb'
      have h2 := (h.good b0 (by rw [hB]; simp)).1
      calc c.total.Min = b0.Min := hhm.symm
        _ ≤ b0.Max := h2
        _ ≤ b.Min := h1

theorem inv_bucket_min_le_max (c : Collector) (h : Inv c) :
    ∀ b ∈ c.Buckets, b.Min ≤ c.total.Max := by
  intro b hb
  obtain ⟨bl, hbl⟩ : ∃ bl, c.Buckets.getLast? = some bl := by
    cases hgl : c.Buckets.getLast? with
    | none =>
      rw [List.getLast?_eq_none_iff.mp hgl] at hb
      simp at hb
    | some bl => exact ⟨bl, rfl⟩
  calc b.Min ≤ b.Max := (h.good b hb).1
    _ ≤ bl.Max := all_le_getLast_max c.Buckets h.chain h.good bl hbl b hb
    _ = c.total.Max := h.last_max bl hbl

/-- The core of the `Add` body turns an all-singleton state for `w` into an
all-singleton state for `w ++ [u]`. -/
theorem addCore_single (c : Collector) (u : ℚ) (w : List ℚ)
    (h : Inv c) (hs : Single w c) : Single (w ++ [u]) (c.addCore u) := by
  obtain ⟨hper, hiff, hnd, hlen⟩ := hs
  unfold Collector.addCore
  by_cases hempty : c.Buckets = []
  · have hwnil : w = [] := by
      refine List.eq_nil_iff_forall_not_mem.mpr fun q hq => ?_
      have := (hiff q).mpr hq
      rw [hempty] at this
      simp at this
    subst hwnil
    simp only [hempty, if_pos]
    refine ⟨?_, ?_, by simp, by simp⟩
    · intro b hb
      simp at hb
      subst hb
      exact ⟨rfl, by simp, by simp⟩
    · intro q
      simp
  · have hMinle := inv_min_le_bucket c h
    have hMaxge := inv_bucket_min_le_max c h
    simp only [hempty, if_neg, ite_false]
    by_cases hmin : u < c.total.Min
    · simp only [hmin, if_pos, ite_true]
      have hunotin : u ∉ w := by
        intro hu
        obtain ⟨x, hx, hxu⟩ := List.mem_map.mp ((hiff u).mpr hu)
        have := hMinle x hx
        rw [hxu] at this
        linarith
      refine ⟨?_, ?_, ?_, ?_⟩
      · intro b hb
        rcases List.mem_cons.mp hb with rfl | hb
        · refine ⟨rfl, ?_, ?_⟩
          · show (1 : ℤ) = _
            rw [count_append_singleton_eq, List.count_eq_zero.mpr hunotin]
            simp
          · show (u : ℚ) = _
            rw [count_append_singleton_eq, List.count_eq_zero.mpr hunotin]
            simp
        · obtain ⟨h1, h2, h3⟩ := hper b hb
          have hbne : b.Min ≠ u := by
            intro he
            have := hMinle b hb
            rw [he] at this
            linarith
          exact ⟨h1, by rw [h2, count_append_singleton_ne w u _ hbne],
            by rw [h3, count_append_singleton_ne w u _ hbne]⟩
      · intro q
        simp only [List.map_cons, List.mem_cons]
        constructor
        · rintro (rfl | hq)
          · exact List.mem_append.mpr (Or.inr (by simp))
          · exact List.mem_append.mpr (Or.inl ((hiff q).mp hq))
        · intro hq
          rcases List.mem_append.mp hq with hq | hq
          · exact Or.inr ((hiff q).mpr hq)
          · simp at hq
            exact Or.inl hq
      · simp only [List.map_cons]
        refine List.nodup_cons.mpr ⟨fun hq => hunotin ((hiff u).mp hq), hnd⟩
      · simp only [List.length_cons, hlen, toFinset_card_append_singleton, if_neg hunotin]
    · simp only [hmin, if_neg, ite_false]
      by_cases hmax : c.total.Max < u
      · simp only [hmax, if_pos, ite_true]
        have hunotin : u ∉ w := by
          intro hu
          obtain ⟨x, hx, hxu⟩ := List.mem_map.mp ((hiff u).mpr hu)
          have := hMaxge x hx
          rw [hxu] at this
          linarith
        refine ⟨?_, ?_, ?_, ?_⟩
        · intro b hb
          rcases List.mem_append.mp hb with hb | hb
          · obtain ⟨h1, h2, h3⟩ := hper b hb
            have hbne : b.Min ≠ u := by
              intro he
              have := hMaxge b hb
              rw [he] at this
              linarith
            exact ⟨h1, by rw [h2, count_append_singleton_ne w u _ hbne],
              by rw [h3, count_append_singleton_ne w u _ hbne]⟩
          · simp at hb
            subst hb
            refine ⟨rfl, ?_, ?_⟩
            · show (1 : ℤ) = _
              rw [count_append_singleton_eq, List.count_eq_zero.mpr hunotin]
              simp
            · show (u : ℚ) = _
              rw [count_append_singleton_eq, List.count_eq_zero.mpr hunotin]
              simp
        · intro q
          rw [List.map_append]
          simp only [List.map_cons, List.map_nil]
          constructor
          · intro hq
            rcases List.mem_append.mp hq with hq | hq
            · exact List.mem_append.mpr (Or.inl ((hiff q).mp hq))
            · simp at hq
              exact List.mem_append.mpr (Or.inr (by simp [hq]))
          · intro hq
            rcases List.mem_append.mp hq with hq | hq
            · exact List.mem_append.mpr (Or.inl ((hiff q).mpr hq))
            · simp at hq
              exact List.mem_append.mpr (Or.inr (by simp [hq]))
        · rw [List.map_append]
          refine List.nodup_append.mpr ⟨hnd, by simp, ?_⟩
          intro q hq hq'
          simp at hq'
          subst hq'
          exact hunotin ((hiff q).mp hq)
        · simp only [List.length_append, List.length_cons, List.length_nil, hlen,
            toFinset_card_append_singleton, if_neg hunotin]
      · have hvle : u ≤ c.total.Max := le_of_not_lt hmax
        have hlastb : ∀ bl, c.Buckets.getLast? = some bl → u ≤ bl.Max := fun bl hbl => by
          rw [h.last_max bl hbl]
          exact hvle
        have hsingleb : ∀ b ∈ c.Buckets, b.Min = b.Max := fun b hb => (hper b hb).1
        simp only [hmax, if_neg, ite_false]
        rcases insertLoop_shape u c.Buckets h.chain h.good hsingleb hlastb hempty with
          ⟨l, b, r, hsp, hbu, hres⟩ | ⟨hnm, l, r, hsp, hres⟩
        · -- `u` hits the unique singleton bucket with `Min = u`
          have huin : u ∈ c.Buckets.map Bucket.Min :=
            List.mem_map.mpr ⟨b, by rw [hsp]; simp, hbu⟩
          have huw : u ∈ w := (hiff u).mp huin
          have hndsp : ((l ++ b :: r).map Bucket.Min).Nodup := by rw [← hsp]; exact hnd
          rw [List.map_append, List.map_cons] at hndsp
          have hul : u ∉ l.map Bucket.Min ∧ u ∉ r.map Bucket.Min := by
            obtain ⟨h1, h2, h3⟩ := List.nodup_append.mp hndsp
            rw [← hbu]
            exact ⟨fun hm => h3 hm (by simp), (List.nodup_cons.mp h2).1⟩
          have hmins_eq : (l ++ { b with Count := b.Count + 1, Sum := b.Sum + u } :: r).map Bucket.Min
              = c.Buckets.map Bucket.Min := by
            rw [hsp]
            simp
          refine ⟨?_, ?_, ?_, ?_⟩
          · intro x hx
            have hx' : x ∈ l ++ { b with Count := b.Count + 1, Sum := b.Sum + u } :: r := by
              have hx2 : x ∈ insertLoop u c.Buckets := hx
              rw [hres] at hx2
              exact hx2
            rcases List.mem_append.mp hx' with hxl | hxc
            · have hxb : x ∈ c.Buckets := by rw [hsp]; exact List.mem_append.mpr (Or.inl hxl)
              obtain ⟨h1, h2, h3⟩ := hper x hxb
              have hxne : x.Min ≠ u := fun he => hul.1 (he ▸ List.mem_map.mpr ⟨x, hxl, rfl⟩)
              exact ⟨h1, by rw [h2, count_append_singleton_ne w u _ hxne],
                by rw [h3, count_append_singleton_ne w u _ hxne]⟩
            · rcases List.mem_cons.mp hxc with rfl | hxr
              · obtain ⟨h1, h2, h3⟩ := hper b (by rw [hsp]; simp)
                refine ⟨h1, ?_, ?_⟩
                · show b.Count + 1 = _
                  rw [show ({ b with Count := b.Count + 1, Sum := b.Sum + u } : Bucket).Min = b.Min from rfl,
                    hbu, count_append_singleton_eq, h2, hbu]
                  push_cast
                  ring
                · show b.Sum + u = _
                  rw [show ({ b with Count := b.Count + 1, Sum := b.Sum + u } : Bucket).Min = b.Min from rfl,
                    hbu, count_append_singleton_eq, h3, hbu]
                  push_cast
                  ring
              · have hxb : x ∈ c.Buckets := by
                  rw [hsp]
                  exact List.mem_append.mpr (Or.inr (by simp [hxr]))
                obtain ⟨h1, h2, h3⟩ := hper x hxb
                have hxne : x.Min ≠ u := fun he => hul.2 (he ▸ List.mem_map.mpr ⟨x, hxr, rfl⟩)
                exact ⟨h1, by rw [h2, count_append_singleton_ne w u _ hxne],
                  by rw [h3, count_append_singleton_ne w u _ hxne]⟩
          · intro q
            show q ∈ (insertLoop u c.Buckets).map Bucket.Min ↔ _
            rw [hres, hmins_eq]
            constructor
            · intro hq
              exact List.mem_append.mpr (Or.inl ((hiff q).mp hq))
            · intro hq
              rcases List.mem_append.mp hq with hq | hq
              · exact (hiff q).mpr hq
              · simp at hq
                subst hq
                exact huin
          · show ((insertLoop u c.Buckets).map Bucket.Min).Nodup
            rw [hres, hmins_eq]
            exact hnd
          · show (insertLoop u c.Buckets).length = _
            rw [hres, toFinset_card_append_singleton, if_pos huw, ← hlen, hsp]
            simp
        · -- `u` is new: a singleton bucket is inserted between `l` and `r`
          have hunotin : u ∉ w := fun hu => hnm ((hiff u).mpr hu)
          have hmins_sp : c.Buckets.map Bucket.Min = l.map Bucket.Min ++ r.map Bucket.Min := by
            rw [hsp, List.map_append]
          refine ⟨?_, ?_, ?_, ?_⟩
          · intro x hx
            have hx' : x ∈ l ++ { Min := u, Max := u, Count := 1, Sum := u } :: r := by
              have hx2 : x ∈ insertLoop u c.Buckets := hx
              rw [hres] at hx2
              exact hx2
            have hside : x ∈ c.Buckets → x.Min = x.Max ∧ x.Count = ((w ++ [u]).count x.Min : ℤ)
                ∧ x.Sum = ((w ++ [u]).count x.Min : ℚ) * x.Min := by
              intro hxb
              obtain ⟨h1, h2, h3⟩ := hper x hxb
              have hxne : x.Min ≠ u := fun he =>
                hnm (he ▸ List.mem_map.mpr ⟨x, hxb, rfl⟩)
              exact ⟨h1, by rw [h2, count_append_singleton_ne w u _ hxne],
                by rw [h3, count_append_singleton_ne w u _ hxne]⟩
            rcases List.mem_append.mp hx' with hxl | hxc
            · exact hside (by rw [hsp]; exact List.mem_append.mpr (Or.inl hxl))
            · rcases List.mem_cons.mp hxc with rfl | hxr
              · refine ⟨rfl, ?_, ?_⟩
                · show (1 : ℤ) = _
                  rw [count_append_singleton_eq, List.count_eq_zero.mpr hunotin]
                  simp
                · show (u : ℚ) = _
                  rw [count_append_singleton_eq, List.count_eq_zero.mpr hunotin]
                  simp
              · exact hside (by rw [hsp]; exact List.mem_append.mpr (Or.inr hxr))
          · intro q
            show q ∈ (insertLoop u c.Buckets).map Bucket.Min ↔ _
            rw [hres, List.map_append, List.map_cons]
            constructor
            · intro hq
              rcases List.mem_append.mp hq with hq | hq
              · refine List.mem_append.mpr (Or.inl ((hiff q).mp ?_))
                rw [hmins_sp]
                exact List.mem_append.mpr (Or.inl hq)
              · rcases List.mem_cons.mp hq with rfl | hq
                · exact List.mem_append.mpr (Or.inr (by simp))
                · refine List.mem_append.mpr (Or.inl ((hiff q).mp ?_))
                  rw [hmins_sp]
                  exact List.mem_append.mpr (Or.inr hq)
            · intro hq
              rcases List.mem_append.mp hq with hq | hq
              · have := (hiff q).mpr hq
                rw [hmins_sp] at this
                rcases List.mem_append.mp this with hq' | hq'
                · exact List.mem_append.mpr (Or.inl hq')
                · exact List.mem_append.mpr (Or.inr (by simp [hq']))
              · simp at hq
                subst hq
                exact List.mem_append.mpr (Or.inr (by simp))
          · show ((insertLoop u c.Buckets).map Bucket.Min).Nodup
            rw [hres, List.map_append, List.map_cons]
            refine List.nodup_middle.mpr ?_
            refine List.nodup_cons.mpr ⟨?_, by rw [← List.map_append, ← hsp]; exact hnd⟩
            intro hq
            refine hnm ?_
            rw [hmins_sp]
            exact hq
          · show (insertLoop u c.Buckets).length = _
            rw [hres, toFinset_card_append_singleton, if_neg hunotin, ← hlen, hsp]
            simp only [List.length_append, List.length_cons]
            omega

/-- The full `Add` body preserves the all-singleton description. -/
theorem addBody_single (c : Collector) (u : ℚ) (w : List ℚ)
    (h : Inv c) (hs : Single w c) : Single (w ++ [u]) (c.addBody u) := by
  refine addCore_single (c.addRaw u) u w (inv_addRaw c u h) ?_
  obtain ⟨hB, _, _, _⟩ := addRaw_fields c u
  unfold Single at hs ⊢
  rw [hB]
  exact hs

theorem addBody_limit (c : Collector) (v : ℚ) :
    (c.addBody v).BucketsLimit
      = if c.Buckets = [] then (if c.BucketsLimit = 0 then DefaultBucketsLimit else c.BucketsLimit)
        else c.BucketsLimit := by
  obtain ⟨hB, ht, hL, _⟩ := addRaw_fields c v
  show ((c.addRaw v).addCore v).BucketsLimit = _
  unfold Collector.addCore
  by_cases he : c.Buckets = []
  · simp [hB, he, hL]
  · simp only [hB, he, if_neg, ite_false]
    by_cases h1 : v < c.total.Min
    · simp [ht, hL, h1]
    · simp only [ht, h1, ite_false]
      by_cases h2 : c.total.Max < v
      · simp [hL, h2]
      · simp [hL, h2]

theorem mergeIfNeeded_id (c : Collector)
    (hn : ¬ c.BucketsLimit < (c.Buckets.length : ℤ)) : c.mergeIfNeeded = c := by
  unfold Collector.mergeIfNeeded
  rw [if_neg hn]

theorem runAdds_append_single (c : Collector) (vs : List ℚ) (v : ℚ) :
    runAdds c (vs ++ [v]) = (runAdds c vs).Add v := by
  unfold runAdds
  rw [List.foldl_append]
  rfl

/-- Master induction for C9: as long as the number of distinct values fits
under the (lazily defaulted) cap, every state is all-singleton and no step
ever exceeds the cap after its insertion body (so no merge ever runs). -/
theorem single_master (limit : ℤ) (wf : Option Weight) (raw : Bool)
    (hlim : limit = 0 ∨ 1 ≤ limit) (vs : List ℚ) :
    ((vs.toFinset.card : ℤ) ≤ (if limit = 0 then DefaultBucketsLimit else limit)) →
    Single vs (runAdds (mkCollector limit wf raw) vs) ∧
    (∀ p u s, vs = p ++ u :: s →
      (((runAdds (mkCollector limit wf raw) p).addBody u).Buckets.length : ℤ)
        ≤ ((runAdds (mkCollector limit wf raw) p).addBody u).BucketsLimit) := by
  induction vs using List.reverseRecOn with
  | nil =>
    intro _
    refine ⟨⟨by simp [runAdds, mkCollector], ?_, by simp [runAdds, mkCollector],
      by simp [runAdds, mkCollector]⟩, ?_⟩
    · intro q
      simp [runAdds, mkCollector]
    · intro p u s hsplit
      exact absurd hsplit (by simp)
  | append_singleton w u ih =>
    intro hcard
    have hsubw : ((w.toFinset.card : ℤ)) ≤ (if limit = 0 then DefaultBucketsLimit else limit) := by
      refine le_trans ?_ hcard
      have : w.toFinset ⊆ (w ++ [u]).toFinset := by
        rw [toFinset_append_singleton]
        exact Finset.subset_insert u w.toFinset
      exact_mod_cast Finset.card_le_card this
    obtain ⟨ihs, ihnm⟩ := ih hsubw
    have hInvw : Inv (runAdds (mkCollector limit wf raw) w) :=
      runAdds_inv w _ (mkCollector_inv limit wf raw hlim)
    have hsingle' : Single (w ++ [u]) ((runAdds (mkCollector limit wf raw) w).addBody u) :=
      addBody_single _ u w hInvw ihs
    have hblim : ((runAdds (mkCollector limit wf raw) w).addBody u).BucketsLimit
        = (if limit = 0 then DefaultBucketsLimit else limit) := by
      rw [addBody_limit]
      by_cases hw : w = []
      · subst hw
        rfl
      · obtain ⟨hL, hne⟩ := runAdds_limit_eq limit wf raw hlim w hw
        rw [if_neg hne, hL]
    have hnm_final : ((((runAdds (mkCollector limit wf raw) w).addBody u).Buckets.length : ℤ))
        ≤ ((runAdds (mkCollector limit wf raw) w).addBody u).BucketsLimit := by
      rw [hblim, hsingle'.2.2.2]
      exact hcard
    have hAddeq : runAdds (mkCollector limit wf raw) (w ++ [u])
        = (runAdds (mkCollector limit wf raw) w).addBody u := by
      rw [runAdds_append_single]
      show ((runAdds (mkCollector limit wf raw) w).addBody u).mergeIfNeeded = _
      exact mergeIfNeeded_id _ (by omega)
    refine ⟨by rw [hAddeq]; exact hsingle', ?_⟩
    intro p u' s hsplit
    rcases s.eq_nil_or_concat' with rfl | ⟨s', a, rfl⟩
    · obtain ⟨hw, hu⟩ := List.append_inj' hsplit.symm (by simp)
      have hu' : u' = u := by simpa using hu
      subst hw
      subst hu'
      exact hnm_final
    · have hsplit' : (p ++ u' :: s') ++ [a] = w ++ [u] := by
        rw [List.append_assoc, List.cons_append, ← hsplit]
      obtain ⟨hw, _⟩ := List.append_inj' hsplit' (by simp)
      exact ihnm p u' s' hw.symm

/-- C9: if the number of distinct inserted values is at most the (lazily
defaulted) `BucketsLimit`, then no insertion ever exceeds the cap after its
body (so the merge block never runs), and the final buckets are exactly one
singleton bucket `[v, v]` per distinct inserted value `v`, with `Count` its
multiplicity and `Sum = Count * v`. -/
theorem claim9_distinct (limit : ℤ) (wf : Option Weight) (raw : Bool)
    (hlim : limit = 0 ∨ 1 ≤ limit) (vs : List ℚ)
    (hd : ((vs.dedup.length : ℤ)) ≤ (if limit = 0 then DefaultBucketsLimit else limit)) :
    (∀ p u s, vs = p ++ u :: s →
      (((runAdds (mkCollector limit wf raw) p).addBody u).Buckets.length : ℤ)
        ≤ ((runAdds (mkCollector limit wf raw) p).addBody u).BucketsLimit) ∧
    ((runAdds (mkCollector limit wf raw) vs).Buckets.map Bucket.Min).Nodup ∧
    (∀ b ∈ (runAdds (mkCollector limit wf raw) vs).Buckets,
      b.Min = b.Max ∧ b.Count = (vs.count b.Min : ℤ) ∧
      b.Sum = (vs.count b.Min : ℚ) * b.Min) ∧
    (∀ q : ℚ, q ∈ (runAdds (mkCollector limit wf raw) vs).Buckets.map Bucket.Min ↔ q ∈ vs) := by
  have hcard : ((vs.toFinset.card : ℤ)) ≤ (if limit = 0 then DefaultBucketsLimit else limit) := by
    rw [List.card_toFinset]
    exact hd
  obtain ⟨⟨hper, hiff, hnd, _⟩, hnm⟩ := single_master limit wf raw hlim vs hcard
  exact ⟨hnm, hnd, hper, hiff⟩

theorem claim9_distinct_witness :
    (((5 : ℤ) = 0 ∨ 1 ≤ (5 : ℤ)) ∧
      ((([1, 2, 1] : List ℚ).dedup.length : ℤ) ≤ (if (5 : ℤ) = 0 then DefaultBucketsLimit else 5))) ∧
    (∀ b ∈ (runAdds (mkCollector 5 none false) [1, 2, 1]).Buckets,
      b.Min = b.Max ∧ b.Count = (([1, 2, 1] : List ℚ).count b.Min : ℤ) ∧
      b.Sum = (([1, 2, 1] : List ℚ).count b.Min : ℚ) * b.Min) :=
  ⟨⟨Or.inr (by norm_num), by decide⟩,
    (claim9_distinct 5 none false (Or.inr (by norm_num)) [1, 2, 1] (by decide)).2.2.1⟩

/-! Second model: `float64` with the IEEE special values (NaN and signed
infinity), for the claims that hinge on NaN/Inf semantics (C6, C10).  Only
the operations the source uses are defined, each following the IEEE-754
rules that Go's `float64` implements. -/

/-- A `float64` value: NaN, a signed infinity (`inf true` is `+Inf`), or a
finite value (embedded exactly as a rational). -/
inductive F where
  | nan : F
  | inf : Bool → F
  | fin : ℚ → F
deriving DecidableEq, Repr

namespace F

def neg : F → F
  | nan => nan
  | inf p => inf (!p)
  | fin q => fin (-q)

/-- IEEE addition (rounding modelled as exact). -/
def add : F → F → F
  | nan, _ => nan
  | _, nan => nan
  | inf p, inf q => if p = q then inf p else nan
  | inf p, fin _ => inf p
  | fin _, inf q => inf q
  | fin a, fin b => fin (a + b)

def sub (a b : F) : F := add a (neg b)

/-- IEEE division (the zero produced by subtraction of equal finite values
is `+0`, so `x / 0` with `x > 0` is `+Inf`, with `x < 0` is `-Inf`, and
`0 / 0` is NaN). -/
def div : F → F → F
  | nan, _ => nan
  | _, nan => nan
  | inf _, inf _ => nan
  | inf p, fin b => if b < 0 then inf (!p) else inf p
  | fin _, inf _ => fin 0
  | fin a, fin b =>
    if b = 0 then (if a = 0 then nan else inf (decide (0 < a))) else fin (a / b)

/-- IEEE `<`: false whenever either operand is NaN. -/
def lt : F → F → Bool
  | nan, _ => false
  | _, nan => false
  | inf p, inf q => !p && q
  | inf p, fin _ => !p
  | fin _, inf q => q
  | fin a, fin b => decide (a < b)

/-- IEEE `<=`: false whenever either operand is NaN. -/
def le : F → F → Bool
  | nan, _ => false
  | _, nan => false
  | inf p, inf q => !p || q
  | inf p, fin _ => !p
  | fin _, inf q => q
  | fin a, fin b => decide (a ≤ b)

/-- `a > b` is `b < a`. -/
def gt (a b : F) : Bool := lt b a

/-- `a >= b` is `b <= a`. -/
def ge (a b : F) : Bool := le b a

theorem lt_nan_right (x : F) : lt x nan = false := by cases x <;> rfl

theorem le_nan_right (x : F) : le x nan = false := by cases x <;> rfl

/-- A weight accepted by the strict `<` of the scan is neither NaN nor
`+Inf`. -/
theorem lt_true_not_bad (a b : F) (h : lt a b = true) : a ≠ nan ∧ a ≠ inf true := by
  cases a <;> cases b <;> simp_all [lt]

end F

/-- Go struct `Bucket` over IEEE values. -/
structure BucketF where
  Min : F
  Max : F
  Count : ℤ
  Sum : F
deriving DecidableEq, Repr

instance : Inhabited BucketF := ⟨⟨F.fin 0, F.fin 0, 0, F.fin 0⟩⟩

abbrev WeightF := BucketF → BucketF → BucketF → F

/-- `AvgWidth` over IEEE values. -/
def AvgWidthF : WeightF := fun b1 b2 _ => F.sub b2.Max b1.Min

/-- `LatencyWidth` (lines 62–64) over IEEE values:
`(b2.Max - b1.Min) / (b2.Max - bTot.Min)`, with no zero-denominator
check. -/
def LatencyWidthF : WeightF := fun b1 b2 bTot =>
  F.div (F.sub b2.Max b1.Min) (F.sub b2.Max bTot.Min)

/-- Go struct `Collector` over IEEE values. -/
structure CollectorF where
  BucketsLimit : ℤ
  total : BucketF
  Buckets : List BucketF
  PrintSum : Bool
  RawValues : Option (List F)
  WeightFunc : Option WeightF

/-- Bucket-scan loop of `Add` over IEEE values (`v >= b.Min` and
`v <= b.Max` are IEEE comparisons, false on NaN). -/
def insertLoopF (v : F) : List BucketF → List BucketF
  | [] => []
  | b :: tl =>
    if F.ge v b.Min then
      if F.le v b.Max then { b with Count := b.Count + 1, Sum := F.add b.Sum v } :: tl
      else b :: insertLoopF v tl
    else { Min := v, Max := v, Count := 1, Sum := v } :: b :: tl

def CollectorF.addRawF (c : CollectorF) (v : F) : CollectorF :=
  match c.RawValues with
  | some rv => { c with RawValues := some (rv ++ [v]) }
  | none => c

/-- Lines 116–171 of `Add` over IEEE values. -/
def CollectorF.addCoreF (c : CollectorF) (v : F) : CollectorF :=
  let c := { c with total := { c.total with Count := c.total.Count + 1, Sum := F.add c.total.Sum v } }
  if c.Buckets = [] then
    { c with
      BucketsLimit := if c.BucketsLimit = 0 then DefaultBucketsLimit else c.BucketsLimit,
      WeightFunc := match c.WeightFunc with
        | none => some AvgWidthF
        | some f => some f,
      Buckets := [⟨v, v, 1, v⟩],
      total := { c.total with Min := v, Max := v } }
  else if F.lt v c.total.Min then
    { c with Buckets := ⟨v, v, 1, v⟩ :: c.Buckets,
             total := { c.total with Min := v } }
  else if F.gt v c.total.Max then
    { c with Buckets := c.Buckets ++ [⟨v, v, 1, v⟩],
             total := { c.total with Max := v } }
  else
    { c with Buckets := insertLoopF v c.Buckets }

def CollectorF.addBodyF (c : CollectorF) (v : F) : CollectorF :=
  (c.addRawF v).addCoreF v

/-- Pair scan of the merge block over IEEE weights (`weight < minWeight` is
the IEEE `<`, false whenever `minWeight` is NaN). -/
def selectFromF (wf : WeightF) (bTot : BucketF) : BucketF → List BucketF → ℕ → ℕ → F → ℕ
  | _, [], _, mergePoint, _ => mergePoint
  | prev, b :: tl, i, mergePoint, minWeight =>
    if mergePoint = 0 then
      selectFromF wf bTot b tl (i + 1) i (wf prev b bTot)
    else if F.lt (wf prev b bTot) minWeight then
      selectFromF wf bTot b tl (i + 1) i (wf prev b bTot)
    else
      selectFromF wf bTot b tl (i + 1) mergePoint minWeight

def selectMergePointF (wf : WeightF) (bTot : BucketF) : List BucketF → ℕ
  | [] => 0
  | b :: tl => selectFromF wf bTot b tl 1 0 (F.fin 0)

def mergeAtF (bs : List BucketF) (mergePoint : ℕ) : List BucketF :=
  let b1 := bs.getD (mergePoint - 1) default
  let b2 := bs.getD mergePoint default
  let merged : BucketF :=
    { Count := b1.Count + b2.Count, Sum := F.add b1.Sum b2.Sum, Min := b1.Min, Max := b2.Max }
  (bs.take (mergePoint - 1) ++ bs.drop mergePoint).set (mergePoint - 1) merged

def CollectorF.mergeIfNeededF (c : CollectorF) : CollectorF :=
  if c.BucketsLimit < (c.Buckets.length : ℤ) then
    { c with Buckets := mergeAtF c.Buckets (selectMergePointF (c.WeightFunc.getD AvgWidthF) c.total c.Buckets) }
  else c

def CollectorF.AddF (c : CollectorF) (v : F) : CollectorF :=
  (c.addBodyF v).mergeIfNeededF

def mkCollectorF (limit : ℤ) (wf : Option WeightF) (raw : Bool) : CollectorF :=
  { BucketsLimit := limit, total := ⟨F.fin 0, F.fin 0, 0, F.fin 0⟩, Buckets := [],
    PrintSum := false, RawValues := if raw then some [] else none, WeightFunc := wf }

def runAddsF (c : CollectorF) (vs : List F) : CollectorF :=
  vs.foldl CollectorF.AddF c

/-- Adjacent-pair weights over IEEE values. -/
def pairWeightsF (wf : WeightF) (bTot : BucketF) : List BucketF → List F
  | b0 :: b1 :: tl => wf b0 b1 bTot :: pairWeightsF wf bTot (b1 :: tl)
  | _ => []

theorem F.lt_nan_left (x : F) : F.lt F.nan x = false := by cases x <;> rfl

/-- Ghost scan over the IEEE weight list. -/
def argFromPairF : List F → ℕ → ℕ → F → ℕ
  | [], _, mergePoint, _ => mergePoint
  | w :: tl, i, mergePoint, minWeight =>
    if mergePoint = 0 then argFromPairF tl (i + 1) i w
    else if F.lt w minWeight then argFromPairF tl (i + 1) i w
    else argFromPairF tl (i + 1) mergePoint minWeight

theorem selectFromF_eq_argFromPairF (wf : WeightF) (bTot : BucketF) :
    ∀ (rest : List BucketF) (prev : BucketF) (i mp : ℕ) (minW : F),
    selectFromF wf bTot prev rest i mp minW
      = argFromPairF (pairWeightsF wf bTot (prev :: rest)) i mp minW := by
  intro rest
  induction rest with
  | nil => intro prev i mp minW; rfl
  | cons b tl ih =>
    intro prev i mp minW
    show selectFromF wf bTot prev (b :: tl) i mp minW
      = argFromPairF (wf prev b bTot :: pairWeightsF wf bTot (b :: tl)) i mp minW
    by_cases h0 : mp = 0
    · simp only [selectFromF, argFromPairF, h0, if_pos]
      exact ih b (i + 1) i (wf prev b bTot)
    · by_cases hlt : F.lt (wf prev b bTot) minW = true
      · simp only [selectFromF, argFromPairF, h0, hlt, if_false, if_true, ite_false, ite_true]
        exact ih b (i + 1) i (wf prev b bTot)
      · simp only [selectFromF, argFromPairF, h0, hlt, if_false, ite_false]
        exact ih b (i + 1) mp minW

theorem pairWeightsF_length (wf : WeightF) (bTot : BucketF) :
    ∀ bs : List BucketF, (pairWeightsF wf bTot bs).length = bs.length - 1 := by
  intro bs
  induction bs with
  | nil => rfl
  | cons b tl ih =>
    cases tl with
    | nil => rfl
    | cons b1 tl2 =>
      show (wf b b1 bTot :: pairWeightsF wf bTot (b1 :: tl2)).length = _
      simp only [List.length_cons] at ih ⊢
      omega

/-- A pair accepted after the first position passed a strict IEEE `<`
comparison, so its weight is neither NaN nor `+Inf`. -/
theorem argFromPairF_spec :
    ∀ (tl : List F) (i mp : ℕ) (minW : F), 1 ≤ mp → mp < i →
    (argFromPairF tl i mp minW = mp ∨
      (i ≤ argFromPairF tl i mp minW ∧ argFromPairF tl i mp minW < i + tl.length ∧
       tl.getD (argFromPairF tl i mp minW - i) (F.fin 0) ≠ F.nan ∧
       tl.getD (argFromPairF tl i mp minW - i) (F.fin 0) ≠ F.inf true)) := by
  intro tl
  induction tl with
  | nil => intro i mp minW _ _; exact Or.inl rfl
  | cons w tl ih =>
    intro i mp minW h1 h2
    have h0 : ¬ (mp = 0) := by omega
    by_cases hlt : F.lt w minW = true
    · have hred : argFromPairF (w :: tl) i mp minW = argFromPairF tl (i + 1) i w := by
        simp [argFromPairF, h0, hlt]
      rw [hred]
      obtain ⟨hnn, hni⟩ := F.lt_true_not_bad w minW hlt
      rcases ih (i + 1) i w (by omega) (by omega) with hr | ⟨hr1, hr2, hr3, hr4⟩
      · refine Or.inr ⟨by omega, by simp only [List.length_cons]; omega, ?_, ?_⟩
        · rw [hr]
          simpa using hnn
        · rw [hr]
          simpa using hni
      · refine Or.inr ⟨by omega, by simp only [List.length_cons]; omega, ?_, ?_⟩
        all_goals {
          have hk : argFromPairF tl (i + 1) i w - i
              = (argFromPairF tl (i + 1) i w - (i + 1)) + 1 := by omega
          rw [hk, List.getD_cons_succ]
          first
          | exact hr3
          | exact hr4 }
    · have hred : argFromPairF (w :: tl) i mp minW = argFromPairF tl (i + 1) mp minW := by
        simp [argFromPairF, h0, hlt]
      rw [hred]
      rcases ih (i + 1) mp minW h1 (by omega) with hr | ⟨hr1, hr2, hr3, hr4⟩
      · exact Or.inl hr
      · refine Or.inr ⟨by omega, by simp only [List.length_cons]; omega, ?_, ?_⟩
        all_goals {
          have hk : argFromPairF tl (i + 1) mp minW - i
              = (argFromPairF tl (i + 1) mp minW - (i + 1)) + 1 := by omega
          rw [hk, List.getD_cons_succ]
          first
          | exact hr3
          | exact hr4 }

/-- Once the running minimum is NaN, no later pair can displace it: every
IEEE comparison `w < NaN` is false. -/
theorem argFromPairF_nanstay :
    ∀ (tl : List F) (i mp : ℕ), argFromPairF tl i mp F.nan = mp ∨ mp = 0 := by
  intro tl
  induction tl with
  | nil => intro i mp; exact Or.inl rfl
  | cons w tl ih =>
    intro i mp
    by_cases h0 : mp = 0
    · exact Or.inr h0
    · have hred : argFromPairF (w :: tl) i mp F.nan = argFromPairF tl (i + 1) mp F.nan := by
        simp [argFromPairF, h0, F.lt_nan_right]
      rw [hred]
      rcases ih (i + 1) mp with h | h
      · exact Or.inl h
      · exact absurd h h0

/-- C6 (amended): the merge-point scan never selects a pair whose weight is
NaN or `+Inf` at any position after the first; the first adjacent pair is
the unconditional initial candidate, so when its weight is NaN it stays
selected no matter what the later pairs' weights are; and `LatencyWidth`
with a zero denominator produces an infinity or NaN, never an ordinary
finite value. -/
theorem claim6_amended (w : WeightF) (bTot : BucketF) (bs : List BucketF)
    (h2 : 2 ≤ bs.length) :
    (1 ≤ selectMergePointF w bTot bs ∧ selectMergePointF w bTot bs < bs.length) ∧
    (∀ i, 2 ≤ i → i < bs.length →
      ((pairWeightsF w bTot bs).getD (i - 1) (F.fin 0) = F.nan ∨
       (pairWeightsF w bTot bs).getD (i - 1) (F.fin 0) = F.inf true) →
      selectMergePointF w bTot bs ≠ i) ∧
    ((pairWeightsF w bTot bs).getD 0 (F.fin 0) = F.nan → selectMergePointF w bTot bs = 1) ∧
    (∀ b1 b2 t : BucketF, F.sub b2.Max t.Min = F.fin 0 →
      LatencyWidthF b1 b2 t = F.nan ∨ LatencyWidthF b1 b2 t = F.inf true ∨
        LatencyWidthF b1 b2 t = F.inf false) := by
  match bs, h2 with
  | b0 :: b1 :: tl, _ =>
    have hsel : selectMergePointF w bTot (b0 :: b1 :: tl)
        = argFromPairF (w b0 b1 bTot :: pairWeightsF w bTot (b1 :: tl)) 1 0 (F.fin 0) := by
      show selectFromF w bTot b0 (b1 :: tl) 1 0 (F.fin 0) = _
      exact selectFromF_eq_argFromPairF w bTot (b1 :: tl) b0 1 0 (F.fin 0)
    have hstep : argFromPairF (w b0 b1 bTot :: pairWeightsF w bTot (b1 :: tl)) 1 0 (F.fin 0)
        = argFromPairF (pairWeightsF w bTot (b1 :: tl)) 2 1 (w b0 b1 bTot) := by
      simp [argFromPairF]
    have hlen' : (pairWeightsF w bTot (b1 :: tl)).length = tl.length := by
      rw [pairWeightsF_length]
      simp
    have hspec := argFromPairF_spec (pairWeightsF w bTot (b1 :: tl)) 2 1 (w b0 b1 bTot)
      (by omega) (by omega)
    rw [hsel, hstep]
    set r := argFromPairF (pairWeightsF w bTot (b1 :: tl)) 2 1 (w b0 b1 bTot) with hr
    refine ⟨?_, ?_, ?_, ?_⟩
    · rcases hspec with h | ⟨ha, hb, _, _⟩
      · rw [h]
        simp only [List.length_cons]
        omega
      · constructor
        · omega
        · simp only [List.length_cons]
          omega
    · intro i hi2 hilen hbad hri
      rcases hspec with h | ⟨ha, hb, hc, hd⟩
      · omega
      · have hgd : (pairWeightsF w bTot (b0 :: b1 :: tl)).getD (i - 1) (F.fin 0)
            = (pairWeightsF w bTot (b1 :: tl)).getD (i - 2) (F.fin 0) := by
          show (w b0 b1 bTot :: pairWeightsF w bTot (b1 :: tl)).getD (i - 1) (F.fin 0) = _
          have hk : i - 1 = (i - 2) + 1 := by omega
          rw [hk, List.getD_cons_succ]
        rw [hgd] at hbad
        rw [hri] at hc hd
        have hi2' : i - 2 = i - 2 := rfl
        rcases hbad with hbad | hbad
        · exact hc (by rw [show i - (2 : ℕ) = i - 2 from rfl] at hbad ⊢; exact hbad)
        · exact hd (by rw [show i - (2 : ℕ) = i - 2 from rfl] at hbad ⊢; exact hbad)
    · intro hnan
      have hw0 : w b0 b1 bTot = F.nan := hnan
      rw [hr, hw0]
      rcases argFromPairF_nanstay (pairWeightsF w bTot (b1 :: tl)) 2 1 with h | h
      · exact h
      · exact absurd h (by omega)
    · intro x1 x2 t hden
      unfold LatencyWidthF
      rw [hden]
      cases hnum : F.sub x2.Max x1.Min with
      | nan => exact Or.inl rfl
      | inf p =>
        show (if (0 : ℚ) < 0 then F.inf (!p) else F.inf p) = F.nan ∨ _
        rw [if_neg (lt_irrefl 0)]
        cases p
        · exact Or.inr (Or.inr rfl)
        · exact Or.inr (Or.inl rfl)
      | fin a =>
        have hdiv : F.div (F.fin a) (F.fin 0)
            = if a = 0 then F.nan else F.inf (decide (0 < a)) := by
          simp [F.div]
        rw [hdiv]
        by_cases ha : a = 0
        · rw [if_pos ha]
          exact Or.inl rfl
        · rw [if_neg ha]
          by_cases hpos : 0 < a
          · rw [show decide (0 < a) = true from by simp [hpos]]
            exact Or.inr (Or.inl rfl)
          · rw [show decide (0 < a) = false from by simp [hpos]]
            exact Or.inr (Or.inr rfl)

theorem claim6_amended_witness :
    (2 ≤ ([⟨F.fin 0, F.fin 0, 1, F.fin 0⟩, ⟨F.fin 1, F.fin 1, 1, F.fin 1⟩] : List BucketF).length) ∧
    ((1 ≤ selectMergePointF LatencyWidthF ⟨F.fin 0, F.fin 1, 2, F.fin 1⟩
        [⟨F.fin 0, F.fin 0, 1, F.fin 0⟩, ⟨F.fin 1, F.fin 1, 1, F.fin 1⟩] ∧
      selectMergePointF LatencyWidthF ⟨F.fin 0, F.fin 1, 2, F.fin 1⟩
        [⟨F.fin 0, F.fin 0, 1, F.fin 0⟩, ⟨F.fin 1, F.fin 1, 1, F.fin 1⟩]
        < ([⟨F.fin 0, F.fin 0, 1, F.fin 0⟩, ⟨F.fin 1, F.fin 1, 1, F.fin 1⟩] : List BucketF).length) ∧
    (∀ i, 2 ≤ i → i < ([⟨F.fin 0, F.fin 0, 1, F.fin 0⟩, ⟨F.fin 1, F.fin 1, 1, F.fin 1⟩] : List BucketF).length →
      ((pairWeightsF LatencyWidthF ⟨F.fin 0, F.fin 1, 2, F.fin 1⟩
          [⟨F.fin 0, F.fin 0, 1, F.fin 0⟩, ⟨F.fin 1, F.fin 1, 1, F.fin 1⟩]).getD (i - 1) (F.fin 0) = F.nan ∨
       (pairWeightsF LatencyWidthF ⟨F.fin 0, F.fin 1, 2, F.fin 1⟩
          [⟨F.fin 0, F.fin 0, 1, F.fin 0⟩, ⟨F.fin 1, F.fin 1, 1, F.fin 1⟩]).getD (i - 1) (F.fin 0) = F.inf true) →
      selectMergePointF LatencyWidthF ⟨F.fin 0, F.fin 1, 2, F.fin 1⟩
        [⟨F.fin 0, F.fin 0, 1, F.fin 0⟩, ⟨F.fin 1, F.fin 1, 1, F.fin 1⟩] ≠ i) ∧
    ((pairWeightsF LatencyWidthF ⟨F.fin 0, F.fin 1, 2, F.fin 1⟩
        [⟨F.fin 0, F.fin 0, 1, F.fin 0⟩, ⟨F.fin 1, F.fin 1, 1, F.fin 1⟩]).getD 0 (F.fin 0) = F.nan →
      selectMergePointF LatencyWidthF ⟨F.fin 0, F.fin 1, 2, F.fin 1⟩
        [⟨F.fin 0, F.fin 0, 1, F.fin 0⟩, ⟨F.fin 1, F.fin 1, 1, F.fin 1⟩] = 1) ∧
    (∀ b1 b2 t : BucketF, F.sub b2.Max t.Min = F.fin 0 →
      LatencyWidthF b1 b2 t = F.nan ∨ LatencyWidthF b1 b2 t = F.inf true ∨
        LatencyWidthF b1 b2 t = F.inf false)) :=
  ⟨by decide,
    claim6_amended LatencyWidthF ⟨F.fin 0, F.fin 1, 2, F.fin 1⟩
      [⟨F.fin 0, F.fin 0, 1, F.fin 0⟩, ⟨F.fin 1, F.fin 1, 1, F.fin 1⟩] (by decide)⟩

/-- The concrete reachable trace for the C6 counterexample: `LatencyWidth`
weights, `BucketsLimit = 2`, values `5`, `3`, then NaN. -/
def c6state : CollectorF := runAddsF (mkCollectorF 2 (some LatencyWidthF) false) [F.fin 5, F.fin 3]

/-- The state of the C6 trace after the body of `Add(NaN)`, just before the
deferred merge block runs. -/
def c6pre : CollectorF := c6state.addBodyF F.nan

/-- C6 (counterexample): with `LatencyWidth` and `BucketsLimit = 2`, adding
`5`, `3` and then NaN reaches a merge in which the first adjacent pair's
weight has a zero denominator (`Buckets[1].Max - total.Min = 0`, making the
weight `NaN/0 = NaN`), a second adjacent pair with ordinary finite weight
`1` exists, and yet the zero-denominator pair IS selected as the merge
minimum and merged -- refuting "such a pair is never chosen as the merge
minimum unless it is the only adjacent pair". -/
theorem claim6_counterexample :
    (c6pre.Buckets.length = 3 ∧
     F.sub (c6pre.Buckets.getD 1 default).Max c6pre.total.Min = F.fin 0 ∧
     LatencyWidthF (c6pre.Buckets.getD 1 default) (c6pre.Buckets.getD 2 default) c6pre.total
       = F.fin 1) ∧
    selectMergePointF (c6pre.WeightFunc.getD AvgWidthF) c6pre.total c6pre.Buckets = 1 ∧
    (c6state.AddF F.nan).Buckets
      = [⟨F.nan, F.fin 3, 2, F.nan⟩, ⟨F.fin 5, F.fin 5, 1, F.fin 5⟩] := by
  have hB : c6pre.Buckets
      = [⟨F.nan, F.nan, 1, F.nan⟩, ⟨F.fin 3, F.fin 3, 1, F.fin 3⟩,
         ⟨F.fin 5, F.fin 5, 1, F.fin 5⟩] := rfl
  have htot : c6pre.total = ⟨F.fin 3, F.fin 5, 3, F.nan⟩ := rfl
  have hW : c6pre.WeightFunc = some LatencyWidthF := rfl
  have hsel : selectMergePointF (c6pre.WeightFunc.getD AvgWidthF) c6pre.total c6pre.Buckets = 1 := by
    rw [hW, hB, htot]
    show selectFromF LatencyWidthF ⟨F.fin 3, F.fin 5, 3, F.nan⟩
      ⟨F.nan, F.nan, 1, F.nan⟩
      [⟨F.fin 3, F.fin 3, 1, F.fin 3⟩, ⟨F.fin 5, F.fin 5, 1, F.fin 5⟩] 1 0 (F.fin 0) = 1
    rw [selectFromF_eq_argFromPairF]
    have hw1 : LatencyWidthF ⟨F.nan, F.nan, 1, F.nan⟩ ⟨F.fin 3, F.fin 3, 1, F.fin 3⟩
        ⟨F.fin 3, F.fin 5, 3, F.nan⟩ = F.nan := rfl
    show argFromPairF (LatencyWidthF ⟨F.nan, F.nan, 1, F.nan⟩ ⟨F.fin 3, F.fin 3, 1, F.fin 3⟩
        ⟨F.fin 3, F.fin 5, 3, F.nan⟩ :: pairWeightsF LatencyWidthF ⟨F.fin 3, F.fin 5, 3, F.nan⟩
          [⟨F.fin 3, F.fin 3, 1, F.fin 3⟩, ⟨F.fin 5, F.fin 5, 1, F.fin 5⟩]) 1 0 (F.fin 0) = 1
    rw [hw1]
    rw [show argFromPairF (F.nan :: pairWeightsF LatencyWidthF ⟨F.fin 3, F.fin 5, 3, F.nan⟩
        [⟨F.fin 3, F.fin 3, 1, F.fin 3⟩, ⟨F.fin 5, F.fin 5, 1, F.fin 5⟩]) 1 0 (F.fin 0)
        = argFromPairF (pairWeightsF LatencyWidthF ⟨F.fin 3, F.fin 5, 3, F.nan⟩
            [⟨F.fin 3, F.fin 3, 1, F.fin 3⟩, ⟨F.fin 5, F.fin 5, 1, F.fin 5⟩]) 2 1 F.nan from by
      simp [argFromPairF]]
    rcases argFromPairF_nanstay (pairWeightsF LatencyWidthF ⟨F.fin 3, F.fin 5, 3, F.nan⟩
        [⟨F.fin 3, F.fin 3, 1, F.fin 3⟩, ⟨F.fin 5, F.fin 5, 1, F.fin 5⟩]) 2 1 with h | h
    · exact h
    · exact absurd h one_ne_zero
  refine ⟨⟨by rw [hB]; rfl, ?_, ?_⟩, hsel, ?_⟩
  · rw [hB, htot]
    show F.fin ((3 : ℚ) + -3) = F.fin 0
    rw [show (3 : ℚ) + -3 = 0 from by norm_num]
  · rw [hB, htot]
    show F.div (F.fin ((5 : ℚ) + -3)) (F.fin ((5 : ℚ) + -3)) = F.fin 1
    rw [show (5 : ℚ) + -3 = 2 from by norm_num]
    show (if (2 : ℚ) = 0 then (if (2 : ℚ) = 0 then F.nan else F.inf (decide (0 < (2 : ℚ))))
        else F.fin (2 / 2)) = F.fin 1
    rw [if_neg (by norm_num : ¬ (2 : ℚ) = 0)]
    rw [show (2 : ℚ) / 2 = 1 from by norm_num]
  · show (c6pre.mergeIfNeededF).Buckets = _
    unfold CollectorF.mergeIfNeededF
    rw [if_pos (by rw [hB]; decide)]
    show mergeAtF c6pre.Buckets
        (selectMergePointF (c6pre.WeightFunc.getD AvgWidthF) c6pre.total c6pre.Buckets) = _
    rw [hsel, hB]
    rfl

/-- C10: on every collector state with at least one bucket and strictly
fewer buckets than `BucketsLimit`, `Add(NaN)` prepends the bucket
`{Min NaN, Max NaN, Count 1, Sum NaN}` at index 0, increments the global
`Count`, and leaves the global `Min` and `Max` unchanged (so NaN input can
break the alignment between `Buckets[0].Min` and the global `Min`). -/
theorem claim10_nan_insert (c : CollectorF) (hne : c.Buckets ≠ [])
    (hlt : (c.Buckets.length : ℤ) < c.BucketsLimit) :
    (c.AddF F.nan).Buckets = ⟨F.nan, F.nan, 1, F.nan⟩ :: c.Buckets ∧
    (c.AddF F.nan).total.Count = c.total.Count + 1 ∧
    (c.AddF F.nan).total.Min = c.total.Min ∧
    (c.AddF F.nan).total.Max = c.total.Max := by
  have hraw : (c.addRawF F.nan).Buckets = c.Buckets ∧ (c.addRawF F.nan).total = c.total ∧
      (c.addRawF F.nan).BucketsLimit = c.BucketsLimit := by
    unfold CollectorF.addRawF
    cases c.RawValues <;> exact ⟨rfl, rfl, rfl⟩
  obtain ⟨hB, ht, hL⟩ := hraw
  obtain ⟨b0, tl0, hb0⟩ := List.exists_cons_of_ne_nil hne
  have hbody : (c.addBodyF F.nan).Buckets = ⟨F.nan, F.nan, 1, F.nan⟩ :: c.Buckets ∧
      (c.addBodyF F.nan).total.Count = c.total.Count + 1 ∧
      (c.addBodyF F.nan).total.Min = c.total.Min ∧
      (c.addBodyF F.nan).total.Max = c.total.Max ∧
      (c.addBodyF F.nan).BucketsLimit = c.BucketsLimit := by
    unfold CollectorF.addBodyF CollectorF.addCoreF
    simp only [hB, ht, hL, hb0]
    simp [F.lt_nan_left, F.gt, F.lt_nan_right, F.ge, F.le_nan_right, insertLoopF]
  obtain ⟨h1, h2, h3, h4, h5⟩ := hbody
  have hid : (c.addBodyF F.nan).mergeIfNeededF = c.addBodyF F.nan := by
    unfold CollectorF.mergeIfNeededF
    rw [if_neg ?_]
    rw [h1, h5]
    simp only [List.length_cons]
    push_cast
    omega
  have hfin : c.AddF F.nan = c.addBodyF F.nan := by
    rw [show c.AddF F.nan = (c.addBodyF F.nan).mergeIfNeededF from rfl, hid]
  rw [hfin]
  exact ⟨h1, h2, h3, h4⟩

theorem claim10_nan_insert_witness :
    (((mkCollectorF 3 none false).AddF (F.fin 1)).Buckets ≠ [] ∧
      ((((mkCollectorF 3 none false).AddF (F.fin 1)).Buckets.length : ℤ)
        < ((mkCollectorF 3 none false).AddF (F.fin 1)).BucketsLimit)) ∧
    ((((mkCollectorF 3 none false).AddF (F.fin 1)).AddF F.nan).Buckets
        = ⟨F.nan, F.nan, 1, F.nan⟩ :: ((mkCollectorF 3 none false).AddF (F.fin 1)).Buckets ∧
      (((mkCollectorF 3 none false).AddF (F.fin 1)).AddF F.nan).total.Count
        = ((mkCollectorF 3 none false).AddF (F.fin 1)).total.Count + 1 ∧
      (((mkCollectorF 3 none false).AddF (F.fin 1)).AddF F.nan).total.Min
        = ((mkCollectorF 3 none false).AddF (F.fin 1)).total.Min ∧
      (((mkCollectorF 3 none false).AddF (F.fin 1)).AddF F.nan).total.Max
        = ((mkCollectorF 3 none false).AddF (F.fin 1)).total.Max) :=
  ⟨⟨by decide, by decide⟩,
    claim10_nan_insert ((mkCollectorF 3 none false).AddF (F.fin 1)) (by decide) (by decide)⟩

end Dynhist
